import Mathlib

/-!
Shallow embedding of the maze-generation core of `maze-generator/src/main.rs`.

The embedding mirrors the Rust source:
* `Direction`, `Cell`, `MeanderStrategy`, `Maze` correspond to the structs and
  enums of the source, with `u32`/`u8` fields modelled as `Nat` (the claims
  under study never exercise integer wrap-around).
* The cell grid `Vec<Vec<Cell>>` is modelled as a total function
  `Nat → Nat → Cell`; the source builds exactly the cells with coordinates
  inside `[0, x_size) × [0, y_size)` and panics on out-of-bounds indexing,
  and every access performed by the generation algorithm is shown in-bounds
  by the invariants proved below.
* The source computes `cell_type` with `f64` arithmetic; here the same
  formula is evaluated in `ℚ`.  The claims never depend on where the
  threshold test lands, and on the small concrete grids used for witnesses
  the two agree (all values are far from the 0.15 threshold).
* The thread-local RNG is modelled by explicit streams: a list of raw draws
  for the weighted sampling (`rand::distributions::WeightedIndex::sample`)
  and a list of Booleans for the 5% branch test (`rng.gen::<f64>() < 0.05`).
  All theorems quantify over all streams.
* Fallible operations return `Option`/`Except`: a `.unwrap()` that the source
  can reach with a `None`/`Err` value is modelled as an explicit failure
  (`Except.error` / a `none` step of the generation machine).
-/

/-- Direction enum of the source: North, East, South, West. -/
inductive Direction where
  | north
  | east
  | south
  | west
deriving DecidableEq, Repr

/-- Rust `Direction::right`: rotate clockwise. -/
def Direction.right : Direction → Direction
  | .north => .east
  | .east => .south
  | .south => .west
  | .west => .north

/-- Rust `Direction::left`: rotate counterclockwise. -/
def Direction.left : Direction → Direction
  | .north => .west
  | .west => .south
  | .south => .east
  | .east => .north

/-- Rust `Direction::opposite`. -/
def Direction.opposite : Direction → Direction
  | .north => .south
  | .west => .east
  | .south => .north
  | .east => .west

/-- Cell struct of the source.  `edges` is the `[bool; 4]` array indexed by
`Direction::to_usize`, modelled as a function out of `Direction` (the
index map is a bijection onto `{0,1,2,3}`). -/
structure Cell where
  cell_type : Nat
  x : Nat
  y : Nat
  edges : Direction → Bool
  visited : Bool
  start_area : Bool
  finish_area : Bool

instance : Inhabited Cell :=
  ⟨{ cell_type := 0, x := 0, y := 0, edges := fun _ => false,
     visited := false, start_area := false, finish_area := false }⟩

/-- Rust `Cell::draw_edge`: set the edge flag for one direction. -/
def Cell.draw_edge (c : Cell) (direction : Direction) : Cell :=
  { c with edges := fun d => if d = direction then true else c.edges d }

/-- Rust `Cell::mark_as_visited`. -/
def Cell.mark_as_visited (c : Cell) : Cell :=
  { c with visited := true }

/-- Rust `Cell::has_edge`. -/
def Cell.has_edge (c : Cell) (direction : Direction) : Bool :=
  c.edges direction

/-- MeanderStrategy struct: the six `u32` weights. -/
structure MeanderStrategy where
  weight_north_south : Nat
  weight_east_west : Nat
  weight_forward : Nat
  weight_turn_left : Nat
  weight_turn_right : Nat
  weight_same_cell_type : Nat

instance : Inhabited MeanderStrategy := ⟨⟨0, 0, 0, 0, 0, 0⟩⟩

/-- Rust `MeanderStrategy::new`. -/
def MeanderStrategy.new (i j k l m n : Nat) : MeanderStrategy :=
  ⟨i, j, k, l, m, n⟩

/-- Maze struct of the source (minus the `rng` field, which is modelled by
explicit streams in the generation state). -/
structure Maze where
  cells : Nat → Nat → Cell
  strategies : List MeanderStrategy
  x_size : Nat
  y_size : Nat
  goal_reached : Bool
  start_finish_size : Nat
  finish_x : Nat
  finish_y : Nat
  start_x : Nat
  start_y : Nat

/-- Cell-type formula of `Maze::new`: membership of `(x, y)` in a centered
elliptical region.  The source tests, in `f64`,
`((x - x_size/2)/x_size)^2 + ((y - y_size/2)/x_size)^2 < 0.15`.
For `x_size > 0` this is exactly the integer inequality
`20*((2x - x_size)^2 + (2y - y_size)^2) < 12*x_size^2` (clear the
denominator `4*x_size^2` and the constant `3/20`); for `x_size = 0` the
`f64` comparison involves NaN or infinity and is `false`, which the integer
form also yields.  The integer form is used so that concrete instances
reduce inside the kernel. -/
def cellTypeOf (x_size y_size x y : Nat) : Nat :=
  if 20 * ((2 * (x : ℤ) - (x_size : ℤ)) * (2 * (x : ℤ) - (x_size : ℤ))
        + (2 * (y : ℤ) - (y_size : ℤ)) * (2 * (y : ℤ) - (y_size : ℤ)))
      < 12 * ((x_size : ℤ) * (x_size : ℤ)) then 0 else 1

/-- Rust `Maze::new`.  The source performs no validation of its arguments and
always returns a fully built `Maze`.  The two `u32` subtractions
(`start_finish_size - 1`, `x_size - start_finish_size`,
`y_size - start_finish_size`) are modelled by truncated `Nat` subtraction;
the configurations studied below keep them in range. -/
def Maze.new (x_size y_size start_finish_size : Nat) : Maze :=
  { cells := fun x y =>
      { cell_type := cellTypeOf x_size y_size x y,
        x := x, y := y,
        edges := fun _ => false,
        visited := false,
        start_area := decide (x < start_finish_size ∧ y < start_finish_size),
        finish_area := decide (x_size - start_finish_size ≤ x ∧
                               y_size - start_finish_size ≤ y) },
    strategies := [MeanderStrategy.new 1 100 1 1 1 1, MeanderStrategy.new 1 1 1 1 1 1],
    x_size := x_size,
    y_size := y_size,
    goal_reached := false,
    start_finish_size := start_finish_size,
    start_x := 0,
    start_y := start_finish_size - 1,
    finish_x := 0,
    finish_y := 0 }

/-- Rust `Maze::get_cell` (clones the cell at the given coordinates). -/
def Maze.get_cell (m : Maze) (x y : Nat) : Cell :=
  m.cells x y

/-- Rust `Maze::draw_edge`: draw an edge on the grid cell at `current`'s
coordinates. -/
def Maze.draw_edge (m : Maze) (current : Cell) (direction : Direction) : Maze :=
  { m with cells := fun x y =>
      if x = current.x ∧ y = current.y then (m.cells x y).draw_edge direction
      else m.cells x y }

/-- Rust `Maze::mark_as_visited`: mark the grid cell at `current`'s
coordinates. -/
def Maze.mark_as_visited (m : Maze) (current : Cell) : Maze :=
  { m with cells := fun x y =>
      if x = current.x ∧ y = current.y then (m.cells x y).mark_as_visited
      else m.cells x y }

/-- Rust `Maze::get_adjacent`: neighbor cell in a direction, or `none` at the
grid boundary. -/
def Maze.get_adjacent (m : Maze) (cell : Cell) (direction : Direction) : Option Cell :=
  match direction with
  | .north => if cell.y = m.y_size - 1 then none else some (m.get_cell cell.x (cell.y + 1))
  | .south => if cell.y = 0 then none else some (m.get_cell cell.x (cell.y - 1))
  | .east => if cell.x = m.x_size - 1 then none else some (m.get_cell (cell.x + 1) cell.y)
  | .west => if cell.x = 0 then none else some (m.get_cell (cell.x - 1) cell.y)

/-- Rust `Maze::is_valid`: the gatekeeping rule for a move. -/
def Maze.is_valid (m : Maze) (current : Cell) (direction : Direction) : Bool :=
  match m.get_adjacent current direction with
  | none => false
  | some target_cell =>
      if target_cell.visited || target_cell.start_area ||
          (target_cell.finish_area && m.goal_reached) then false else true

/-- Rust `Maze::get_previous_direction`: scan North, East, South, West; on the
first neighbor holding an edge pointing into `cell`, return the direction of
that incoming edge. -/
def Maze.get_previous_direction (m : Maze) (cell : Cell) : Option Direction :=
  let check : Direction → Option Direction := fun d =>
    match m.get_adjacent cell d with
    | some adjacent => if adjacent.has_edge d.opposite then some d.opposite else none
    | none => none
  match check .north with
  | some d => some d
  | none =>
    match check .east with
    | some d => some d
    | none =>
      match check .south with
      | some d => some d
      | none => check .west

/-- Rust `Maze::get_previous_cell`: follow the incoming edge backwards.  The
source unwraps twice; a `none` result models those panics. -/
def Maze.get_previous_cell? (m : Maze) (cell : Cell) : Option Cell :=
  match m.get_previous_direction cell with
  | none => none
  | some d =>
      match m.get_adjacent cell d.opposite with
      | none => none
      | some previous => some (m.get_cell previous.x previous.y)

/-- Success test of `rand::distributions::WeightedIndex::new`: it returns an
error when the weight list is empty (`NoItem`) or all weights are zero
(`AllWeightsZero`); `u32` weights cannot be negative. -/
def weightedIndexOk (weights : List Nat) : Bool :=
  decide (0 < weights.sum)

/-- Sampling of `WeightedIndex`: a uniform draw `u` in `[0, total)` selects the
index whose cumulative-weight interval contains `u`.  The raw draw `r` is
reduced modulo the total by the caller. -/
def weightedSample : List Nat → Nat → Nat
  | [], _ => 0
  | w :: ws, u => if u < w then 0 else weightedSample ws (u - w) + 1

/-- Rust `MeanderStrategy::get_weight`.  The `.unwrap()` of `get_adjacent` is
modelled by `Option.getD`: the function is only called on directions that
passed `is_valid`, for which the neighbor exists. -/
def MeanderStrategy.get_weight (s : MeanderStrategy) (m : Maze) (current : Cell)
    (direction previous_direction : Direction) : Nat :=
  let next : Cell := (m.get_adjacent current direction).getD default
  let weight : Nat := 0
  let weight := if direction = .north ∨ direction = .south then
    weight + s.weight_north_south else weight + s.weight_east_west
  let weight := if current.cell_type = next.cell_type then
    weight + s.weight_same_cell_type else weight
  let weight := if direction = previous_direction then weight + s.weight_forward else weight
  let weight := if direction = previous_direction.left then weight + s.weight_turn_left else weight
  let weight := if direction = previous_direction.right then weight + s.weight_turn_right else weight
  weight

/-- Enumeration order of the candidate loop in `get_direction`: the loop
rotates right before each validity test, so it probes
`prev.right, prev.right², prev.right³, prev.right⁴`. -/
def rotations (previous_direction : Direction) : List Direction :=
  [previous_direction.right,
   previous_direction.right.right,
   previous_direction.right.right.right,
   previous_direction.right.right.right.right]

/-- Rust `MeanderStrategy::get_direction`.  `r` is the raw random draw used by
the weighted sampling.  `Except.error ()` models the panic of
`WeightedIndex::new(&weights).unwrap()` when every candidate weight is zero. -/
def MeanderStrategy.get_direction (s : MeanderStrategy) (m : Maze) (current : Cell)
    (r : Nat) : Except Unit (Option Direction) :=
  let previous_direction := (m.get_previous_direction current).getD .north
  let directions := (rotations previous_direction).filter (fun d => m.is_valid current d)
  let weights := directions.map (fun d => s.get_weight m current d previous_direction)
  if 0 < directions.length then
    if weightedIndexOk weights then
      Except.ok (some (directions.getD (weightedSample weights (r % weights.sum)) .north))
    else Except.error ()
  else Except.ok none

/-- Rust `Maze::meander`: pick the strategy for the cell's type and delegate.
The `.unwrap()` of `strategies.get` is modelled by `getD`; cell types are
always `0` or `1` and two strategies are installed. -/
def Maze.meander (m : Maze) (current : Cell) (r : Nat) : Except Unit (Option Direction) :=
  let strategy : MeanderStrategy := m.strategies.getD current.cell_type default
  strategy.get_direction m current r

/-- State of the generation loop of `Maze::generate`: the maze, the frontier
`paths` vector (the source stores cell copies, of which only the coordinates
and construction-time-immutable fields are ever read; we store coordinates),
the inner-loop index, and the two random streams. -/
structure GenState where
  maze : Maze
  paths : List (Nat × Nat)
  index : Nat
  rng : List Nat
  branch : List Bool

instance : Inhabited GenState :=
  ⟨{ maze := Maze.new 0 0 0, paths := [], index := 0, rng := [], branch := [] }⟩

/-- One step of the nested loops of `Maze::generate`:
* if `paths` is empty the outer `while` has exited (the state is final);
* if `index` has run past the end, the inner loop exits and the outer loop
  restarts it at `0`;
* otherwise run one inner-loop body: ask `meander` for a direction and
  advance, branch, record the finish, back-track, or retire the path exactly
  as the source does.  A `none` result models a panic
  (`WeightedIndex` unwrap or `get_previous_cell` unwrap). -/
def genStep (st : GenState) : Option GenState :=
  if st.paths.isEmpty then some st
  else if st.paths.length ≤ st.index then some { st with index := 0 }
  else
    let m := st.maze
    let p := st.paths.getD st.index (0, 0)
    let path := m.get_cell p.1 p.2
    let r := st.rng.headD 0
    let rng' := st.rng.tail
    match m.meander path r with
    | Except.error _ => none
    | Except.ok none =>
        if path.x = m.start_x ∧ path.y = m.start_y then
          some { st with paths := st.paths.eraseIdx st.index, rng := rng' }
        else
          match m.get_previous_cell? path with
          | none => none
          | some previous =>
              some { st with paths := st.paths.set st.index (previous.x, previous.y),
                             index := st.index + 1, rng := rng' }
    | Except.ok (some direction) =>
        let b := st.branch.headD false
        let branch' := st.branch.tail
        let paths1 := if b then st.paths ++ [(path.x, path.y)] else st.paths
        match m.get_adjacent path direction with
        | none => none
        | some next =>
            if next.finish_area then
              some { st with
                maze := { (m.draw_edge path direction).mark_as_visited next with
                          finish_x := next.x, finish_y := next.y, goal_reached := true },
                paths := paths1, index := st.index + 1, rng := rng', branch := branch' }
            else
              some { st with
                maze := (m.draw_edge path direction).mark_as_visited next,
                paths := paths1.set st.index (next.x, next.y),
                index := st.index + 1, rng := rng', branch := branch' }

/-- Iterate `genStep` with fuel, stopping at a final (empty-`paths`) state. -/
def genRun : Nat → GenState → Option GenState
  | 0, st => some st
  | fuel + 1, st => if st.paths.isEmpty then some st else (genStep st).bind (genRun fuel)

/-- Initial state of `Maze::generate`: a single path at the start cell. -/
def initState (m : Maze) (rng : List Nat) (branch : List Bool) : GenState :=
  { maze := m,
    paths := [((m.get_cell m.start_x m.start_y).x, (m.get_cell m.start_x m.start_y).y)],
    index := 0, rng := rng, branch := branch }

/-- Coordinate-level adjacency, mirroring the arithmetic of
`Maze::get_adjacent`. -/
def adjOpt (x_size y_size x y : Nat) (d : Direction) : Option (Nat × Nat) :=
  match d with
  | .north => if y = y_size - 1 then none else some (x, y + 1)
  | .south => if y = 0 then none else some (x, y - 1)
  | .east => if x = x_size - 1 then none else some (x + 1, y)
  | .west => if x = 0 then none else some (x - 1, y)

/-- Value of the scan `get_previous_direction` performs for one direction:
`true` when the neighbor of `(x, y)` in direction `d` holds an edge pointing
into `(x, y)`. -/
def Maze.incomingFlag (m : Maze) (x y : Nat) (d : Direction) : Bool :=
  match m.get_adjacent (m.get_cell x y) d with
  | some adjacent => adjacent.has_edge d.opposite
  | none => false

/-- In-degree of a cell: the number of adjacent cells holding an edge flag
pointing into it. -/
def Maze.inDeg (m : Maze) (x y : Nat) : Nat :=
  (if m.incomingFlag x y .north then 1 else 0) +
  (if m.incomingFlag x y .east then 1 else 0) +
  (if m.incomingFlag x y .south then 1 else 0) +
  (if m.incomingFlag x y .west then 1 else 0)

/-- Iterated `get_previous_cell`: follow incoming edges backwards `k` times
(`none` when some step has no incoming edge). -/
def prevIter (m : Maze) : Nat → Nat × Nat → Option (Nat × Nat)
  | 0, p => some p
  | k + 1, p =>
      match m.get_previous_cell? (m.get_cell p.1 p.2) with
      | none => none
      | some q => prevIter m k (q.x, q.y)

/-- Number of visited cells inside the grid. -/
def visitedCount (x_size y_size : Nat) (m : Maze) : Nat :=
  (((Finset.range x_size) ×ˢ (Finset.range y_size)).filter
    (fun p => (m.cells p.1 p.2).visited = true)).card

/-- Valid configuration per the specification: positive zone size, smaller
than half of either dimension. -/
def validConfig (x_size y_size start_finish_size : Nat) : Prop :=
  1 ≤ start_finish_size ∧ 2 * start_finish_size < x_size ∧ 2 * start_finish_size < y_size

instance (x_size y_size start_finish_size : Nat) :
    Decidable (validConfig x_size y_size start_finish_size) := by
  unfold validConfig; infer_instance

/-- Weight formula as the specification words it: axis weight, plus the
same-cell-type weight, plus the forward weight, plus the turn-left weight,
plus the turn-right weight, each added when its condition holds. -/
def specWeight (s : MeanderStrategy) (m : Maze) (current : Cell)
    (d prev : Direction) : Nat :=
  (if d = .north ∨ d = .south then s.weight_north_south else s.weight_east_west)
  + (if current.cell_type = ((m.get_adjacent current d).getD default).cell_type then
      s.weight_same_cell_type else 0)
  + (if d = prev then s.weight_forward else 0)
  + (if d = prev.left then s.weight_turn_left else 0)
  + (if d = prev.right then s.weight_turn_right else 0)

/-- Candidate list as the specification words it: the four directions in
rotational order starting from `prev.right`, filtered by the validity
check. -/
def specCandidates (m : Maze) (current : Cell) (prev : Direction) : List Direction :=
  (rotations prev).filter (fun d => m.is_valid current d)

/-- Depth of a cell in the recorded edge tree: number of backward steps of
`get_previous_cell` until the start cell, computed with fuel (the invariants
below show the grid-cell count is always enough fuel for reachable states). -/
def depthAux (m : Maze) : Nat → Nat × Nat → Nat
  | 0, _ => 0
  | fuel + 1, p =>
      if p = (m.start_x, m.start_y) then 0
      else
        match m.get_previous_cell? (m.get_cell p.1 p.2) with
        | some q => depthAux m fuel (q.x, q.y) + 1
        | none => 0

/-- Depth with the full grid-cell count as fuel. -/
def depth (m : Maze) (p : Nat × Nat) : Nat :=
  depthAux m (m.x_size * m.y_size) p

/-- Combined size of the frontier: one unit per path plus its depth. -/
def pathSum (st : GenState) : Nat :=
  (st.paths.map (fun p => 1 + depth st.maze p)).sum

/-- Termination measure for the generation machine: it strictly decreases at
every step taken from a state with a non-empty frontier. -/
def stepMeasure (x_size y_size : Nat) (st : GenState) : Nat :=
  2 * ((x_size * y_size + 2) * (x_size * y_size - visitedCount x_size y_size st.maze)
        + pathSum st)
    + (if st.index < st.paths.length then 0 else 1)

/-- Fuel sufficient for the generation machine to reach the final state on
any valid configuration: one more than the initial measure. -/
def genFuel (x_size y_size : Nat) : Nat :=
  2 * ((x_size * y_size + 2) * (x_size * y_size) + 1) + 2

/-- Inductive invariant of the generation machine, relative to the
configuration `(x_size, y_size, start_finish_size) = (xs, ys, sfs)`.  It
packages: the frame of the maze scalars and the construction-time cell
fields; monotone regions (outside cells untouched, start area never
visited); soundness of every recorded edge (it targets an existing,
visited, non-start-area neighbor and originates in a visited cell or the
start cell); in-degree one for visited cells; frontier paths pointing at
visited cells or the start; the goal flag tracking visited finish cells,
of which there is at most one; and a rank function certifying acyclicity
of the recorded edges. -/
structure GenInv (xs ys sfs : Nat) (st : GenState) : Prop where
  hx : st.maze.x_size = xs
  hy : st.maze.y_size = ys
  hsfs : st.maze.start_finish_size = sfs
  hstx : st.maze.start_x = 0
  hsty : st.maze.start_y = sfs - 1
  hstrat : st.maze.strategies
    = [MeanderStrategy.new 1 100 1 1 1 1, MeanderStrategy.new 1 1 1 1 1 1]
  hcx : ∀ x y, (st.maze.cells x y).x = x
  hcy : ∀ x y, (st.maze.cells x y).y = y
  hct : ∀ x y, (st.maze.cells x y).cell_type = cellTypeOf xs ys x y
  hsa : ∀ x y, (st.maze.cells x y).start_area = decide (x < sfs ∧ y < sfs)
  hfa : ∀ x y, (st.maze.cells x y).finish_area
    = decide (xs - sfs ≤ x ∧ ys - sfs ≤ y)
  hout : ∀ x y, ¬(x < xs ∧ y < ys) →
    (st.maze.cells x y).visited = false ∧ ∀ d, (st.maze.cells x y).edges d = false
  hsv : ∀ x y, x < sfs → y < sfs → (st.maze.cells x y).visited = false
  hedge : ∀ x y d, (st.maze.cells x y).edges d = true →
    (x < xs ∧ y < ys) ∧
    ∃ t, adjOpt xs ys x y d = some t ∧
      (st.maze.cells t.1 t.2).visited = true ∧
      ¬(t.1 < sfs ∧ t.2 < sfs) ∧
      ((st.maze.cells x y).visited = true ∨ (x = 0 ∧ y = sfs - 1))
  hdeg : ∀ x y, x < xs → y < ys → (st.maze.cells x y).visited = true →
    st.maze.inDeg x y = 1
  hpaths : ∀ p ∈ st.paths, (p.1 < xs ∧ p.2 < ys) ∧
    ((p.1 = 0 ∧ p.2 = sfs - 1) ∨ (st.maze.cells p.1 p.2).visited = true)
  hgoal : st.maze.goal_reached = true ↔
    ∃ x y, (x < xs ∧ y < ys) ∧ (st.maze.cells x y).finish_area = true ∧
      (st.maze.cells x y).visited = true
  hone : ∀ x y u v, (st.maze.cells x y).finish_area = true →
    (st.maze.cells x y).visited = true →
    (st.maze.cells u v).finish_area = true → (st.maze.cells u v).visited = true →
    x = u ∧ y = v
  hrank : ∃ rk : Nat → Nat → Nat,
    (∀ x y d t, (st.maze.cells x y).edges d = true → adjOpt xs ys x y d = some t →
      rk x y < rk t.1 t.2) ∧
    (∀ x y, rk x y ≤ visitedCount xs ys st.maze)

/-! ### Basic facts about the sampling helper -/

theorem weightedSample_lt {ws : List Nat} {u : Nat} (h : u < ws.sum) :
    weightedSample ws u < ws.length := by
  induction ws generalizing u with
  | nil => simp at h
  | cons w ws ih =>
      by_cases hu : u < w
      · simp [weightedSample, hu]
      · have : u - w < ws.sum := by
          simp only [List.sum_cons] at h
          omega
        simp only [weightedSample, hu, if_false]
        exact Nat.succ_lt_succ (ih this)

/-- Characterization of `is_valid`, shared by several developments below. -/
theorem is_valid_true_iff (m : Maze) (current : Cell) (d : Direction) :
    m.is_valid current d = true ↔
      ∃ target, m.get_adjacent current d = some target ∧
        target.visited = false ∧
        target.start_area = false ∧
        (target.finish_area = false ∨ m.goal_reached = false) := by
  unfold Maze.is_valid
  cases h : m.get_adjacent current d with
  | none => simp [h]
  | some target =>
      constructor
      · intro hv
        refine ⟨target, rfl, ?_, ?_, ?_⟩
        · cases hvv : target.visited
          · rfl
          · simp [hvv] at hv
        · cases hsa : target.start_area
          · rfl
          · simp [hsa] at hv
        · cases hfa : target.finish_area
          · exact Or.inl rfl
          · cases hg : m.goal_reached
            · exact Or.inr rfl
            · simp [hfa, hg] at hv
      · rintro ⟨t, ht, h1, h2, h3⟩
        injection ht with ht
        subst ht
        rcases h3 with h3 | h3 <;> simp [h1, h2, h3]

/-- Any direction returned by `get_direction` is one of the four rotations
that passed the validity filter. -/
theorem get_direction_ok_some_mem (s : MeanderStrategy) (m : Maze) (current : Cell)
    (r : Nat) (d : Direction)
    (hd : s.get_direction m current r = Except.ok (some d)) :
    d ∈ (rotations ((m.get_previous_direction current).getD .north)).filter
        (fun e => m.is_valid current e) := by
  unfold MeanderStrategy.get_direction at hd
  set prev := (m.get_previous_direction current).getD .north
  set cands := (rotations prev).filter (fun e => m.is_valid current e) with hc
  by_cases h : 0 < cands.length
  · simp only [h, if_true] at hd
    set ws := cands.map (fun e => s.get_weight m current e prev) with hw
    by_cases hok : weightedIndexOk ws
    · simp only [hok, if_true, Except.ok.injEq, Option.some.injEq] at hd
      have hsum : 0 < ws.sum := by simpa [weightedIndexOk] using hok
      have hlt : weightedSample ws (r % ws.sum) < ws.length :=
        weightedSample_lt (Nat.mod_lt _ hsum)
      have hlen : ws.length = cands.length := by simp [hw]
      rw [hlen] at hlt
      rw [← hd, List.getD_eq_getElem cands Direction.north hlt]
      exact List.getElem_mem hlt
    · simp [hok] at hd
  · simp [h] at hd

/-- Lower bound on `get_weight`: the axis component is always added, so the
weight is at least the smaller axis weight. -/
theorem get_weight_pos (s : MeanderStrategy) (m : Maze) (current : Cell)
    (d prev : Direction) (h1 : 1 ≤ s.weight_north_south) (h2 : 1 ≤ s.weight_east_west) :
    1 ≤ s.get_weight m current d prev := by
  unfold MeanderStrategy.get_weight
  dsimp only
  split_ifs <;> omega

/-- With positive axis weights, `get_direction` never hits the
`WeightedIndex` failure. -/
theorem get_direction_ne_error (s : MeanderStrategy) (m : Maze) (current : Cell)
    (r : Nat) (h1 : 1 ≤ s.weight_north_south) (h2 : 1 ≤ s.weight_east_west) :
    s.get_direction m current r ≠ Except.error () := by
  unfold MeanderStrategy.get_direction
  set prev := (m.get_previous_direction current).getD .north
  set cands := (rotations prev).filter (fun e => m.is_valid current e) with hc
  set ws := cands.map (fun e => s.get_weight m current e prev) with hw
  by_cases h : 0 < cands.length
  · have hok : weightedIndexOk ws = true := by
      simp only [weightedIndexOk, decide_eq_true_eq]
      rcases List.exists_mem_of_length_pos h with ⟨a, ha⟩
      have hmem : s.get_weight m current a prev ∈ ws := List.mem_map_of_mem _ ha
      calc 0 < 1 := Nat.one_pos
        _ ≤ s.get_weight m current a prev := get_weight_pos s m current a prev h1 h2
        _ ≤ ws.sum := List.le_sum_of_mem hmem
    simp [h, hok]
  · simp [h]

/-! ### Claim C5: the move-validity check -/

/-- C5: for every cell and direction, `is_valid` returns `true` exactly when
the adjacent cell exists, is not visited, is not in the start area, and is
not in the finish area with `goal_reached` already set; in every other case
it returns `false`. -/
theorem is_valid_iff (m : Maze) (current : Cell) (d : Direction) :
    m.is_valid current d = true ↔
      ∃ target, m.get_adjacent current d = some target ∧
        target.visited = false ∧
        target.start_area = false ∧
        (target.finish_area = false ∨ m.goal_reached = false) :=
  is_valid_true_iff m current d

/-- C5 witness: a concrete instance of the validity rule.  On the fresh 3×3
maze, moving east from the cell `(0, 0)` is valid. -/
theorem is_valid_iff_witness :
    (Maze.new 3 3 1).is_valid ((Maze.new 3 3 1).get_cell 0 0) .east = true ↔
      ∃ target, (Maze.new 3 3 1).get_adjacent ((Maze.new 3 3 1).get_cell 0 0) .east = some target ∧
        target.visited = false ∧
        target.start_area = false ∧
        (target.finish_area = false ∨ (Maze.new 3 3 1).goal_reached = false) :=
  is_valid_iff (Maze.new 3 3 1) ((Maze.new 3 3 1).get_cell 0 0) .east

/-! ### Claim C6: candidate enumeration and the weight formula -/

/-- C6: `get_direction` enumerates the four directions in rotational order
starting from `previous_direction.right` (with `previous_direction`
defaulting to North when the cell has no incoming edge), keeps exactly the
candidates passing the validity check, weights each by the specification's
sum formula, returns `none` exactly when no candidate is valid, and any
direction it returns is one of the candidates. -/
theorem get_direction_follows_spec (s : MeanderStrategy) (m : Maze) (current : Cell) (r : Nat) :
    (∀ d prev, s.get_weight m current d prev = specWeight s m current d prev) ∧
    (s.get_direction m current r = Except.ok none ↔
      specCandidates m current ((m.get_previous_direction current).getD .north) = []) ∧
    (∀ d, s.get_direction m current r = Except.ok (some d) →
      d ∈ specCandidates m current ((m.get_previous_direction current).getD .north)) := by
  refine ⟨?_, ?_, ?_⟩
  · intro d prev
    unfold MeanderStrategy.get_weight specWeight
    split_ifs <;> simp_all
  · unfold MeanderStrategy.get_direction specCandidates
    set prev := (m.get_previous_direction current).getD .north
    set cands := (rotations prev).filter (fun d => m.is_valid current d) with hc
    by_cases h : 0 < cands.length
    · have hne : cands ≠ [] := by
        intro hnil; rw [hnil] at h; simp at h
      simp only [h, if_true]
      constructor
      · intro hcontra
        split at hcontra <;> simp_all
      · intro hnil; exact absurd hnil hne
    · have hnil : cands = [] := List.length_eq_zero.mp (by omega)
      simp [h, hnil]
  · intro d hd
    exact get_direction_ok_some_mem s m current r d hd

/-- C6 witness: on the fresh 3×3 maze at the start cell with raw draw `0`,
the policy with all weights `1` returns East, which is indeed one of the
specification's candidates. -/
theorem get_direction_follows_spec_witness :
    Direction.east ∈ specCandidates (Maze.new 3 3 1) ((Maze.new 3 3 1).get_cell 0 0)
      (((Maze.new 3 3 1).get_previous_direction ((Maze.new 3 3 1).get_cell 0 0)).getD .north) :=
  (get_direction_follows_spec (MeanderStrategy.new 1 1 1 1 1 1) (Maze.new 3 3 1)
      ((Maze.new 3 3 1).get_cell 0 0) 0).2.2 .east rfl

/-! ### Claim C2: behavior on all-zero candidate weights -/

/-- C2 amended (positive part): whenever the candidate set is non-empty and
the candidate weights have positive sum, `get_direction` returns one of the
valid candidates. -/
theorem get_direction_some_of_pos_sum (s : MeanderStrategy) (m : Maze) (current : Cell)
    (r : Nat)
    (hne : (rotations ((m.get_previous_direction current).getD .north)).filter
        (fun d => m.is_valid current d) ≠ [])
    (hpos : 0 < (((rotations ((m.get_previous_direction current).getD .north)).filter
        (fun d => m.is_valid current d)).map
        (fun d => s.get_weight m current d ((m.get_previous_direction current).getD .north))).sum) :
    ∃ d, s.get_direction m current r = Except.ok (some d) ∧ m.is_valid current d = true := by
  unfold MeanderStrategy.get_direction
  set prev := (m.get_previous_direction current).getD .north with hprev
  set cands := (rotations prev).filter (fun d => m.is_valid current d) with hc
  set ws := cands.map (fun d => s.get_weight m current d prev) with hw
  have hlen : 0 < cands.length := by
    cases h : cands with
    | nil => exact absurd h hne
    | cons a l => simp [h]
  have hok : weightedIndexOk ws = true := by
    simp only [weightedIndexOk, decide_eq_true_eq]
    exact hpos
  simp only [hlen, if_true, hok]
  refine ⟨cands.getD (weightedSample ws (r % ws.sum)) .north, rfl, ?_⟩
  have hlt : weightedSample ws (r % ws.sum) < ws.length :=
    weightedSample_lt (Nat.mod_lt _ hpos)
  have hlen2 : ws.length = cands.length := by simp [hw]
  rw [hlen2] at hlt
  rw [List.getD_eq_getElem cands Direction.north hlt]
  have hmem : cands[weightedSample ws (r % ws.sum)] ∈
      (rotations prev).filter (fun d => m.is_valid current d) := List.getElem_mem hlt
  exact (List.mem_filter.mp hmem).2

/-- C2 witness: a concrete application of the positive-sum case.  On the
fresh 3×3 maze at the start cell, the all-ones policy has candidates with
positive total weight and returns a valid candidate. -/
theorem get_direction_some_of_pos_sum_witness :
    ∃ d, (MeanderStrategy.new 1 1 1 1 1 1).get_direction (Maze.new 3 3 1)
        ((Maze.new 3 3 1).get_cell 0 0) 0 = Except.ok (some d) ∧
      (Maze.new 3 3 1).is_valid ((Maze.new 3 3 1).get_cell 0 0) d = true :=
  get_direction_some_of_pos_sum (MeanderStrategy.new 1 1 1 1 1 1) (Maze.new 3 3 1)
    ((Maze.new 3 3 1).get_cell 0 0) 0 (by decide) (by decide)

/-- C2 counterexample: on the fresh 3×3 maze at cell `(1, 1)` the candidate
set has four valid directions, yet the all-zero-weight policy does not
return any of them: the `WeightedIndex::new(..).unwrap()` of the source
fails (`AllWeightsZero`), modelled by `Except.error`. -/
theorem get_direction_zero_weights_fails :
    ((rotations (((Maze.new 3 3 1).get_previous_direction
        ((Maze.new 3 3 1).get_cell 1 1)).getD .north)).filter
        (fun d => (Maze.new 3 3 1).is_valid ((Maze.new 3 3 1).get_cell 1 1) d)).length = 4 ∧
    (MeanderStrategy.new 0 0 0 0 0 0).get_direction (Maze.new 3 3 1)
        ((Maze.new 3 3 1).get_cell 1 1) 0 = Except.error () :=
  ⟨rfl, rfl⟩

/-! ### Claim C3: construction performs no validation -/

/-- C3 counterexample: `Maze::new` has no failure channel.  With
`start_finish_size = 2 ≥ min(4, 4) / 2` (the configuration the claim says
must be rejected) a maze is fully built, as it also is with zero
dimensions. -/
theorem maze_new_invalid_config_builds :
    (Maze.new 4 4 2).x_size = 4 ∧ (Maze.new 4 4 2).y_size = 4 ∧
    ((Maze.new 4 4 2).cells 0 0).start_area = true ∧
    ((Maze.new 4 4 2).cells 3 3).finish_area = true ∧
    (Maze.new 0 0 3).x_size = 0 ∧ (Maze.new 0 5 3).y_size = 5 :=
  ⟨rfl, rfl, rfl, rfl, rfl, rfl⟩

/-- C3 amended: `Maze::new` validates nothing and reports no error of any
kind: for every argument triple, including zone sizes at least half the
minimum dimension and zero dimensions, it returns a fully initialized maze
(the function's return type is `Maze`, not a result type). -/
theorem maze_new_always_builds (x_size y_size start_finish_size : Nat) :
    (Maze.new x_size y_size start_finish_size).x_size = x_size ∧
    (Maze.new x_size y_size start_finish_size).y_size = y_size ∧
    (Maze.new x_size y_size start_finish_size).start_finish_size = start_finish_size ∧
    (Maze.new x_size y_size start_finish_size).goal_reached = false ∧
    (Maze.new x_size y_size start_finish_size).start_x = 0 ∧
    (Maze.new x_size y_size start_finish_size).start_y = start_finish_size - 1 ∧
    ∀ x y,
      ((Maze.new x_size y_size start_finish_size).cells x y).x = x ∧
      ((Maze.new x_size y_size start_finish_size).cells x y).y = y ∧
      ((Maze.new x_size y_size start_finish_size).cells x y).visited = false ∧
      ((Maze.new x_size y_size start_finish_size).cells x y).cell_type
        = cellTypeOf x_size y_size x y ∧
      ((Maze.new x_size y_size start_finish_size).cells x y).start_area
        = decide (x < start_finish_size ∧ y < start_finish_size) ∧
      ((Maze.new x_size y_size start_finish_size).cells x y).finish_area
        = decide (x_size - start_finish_size ≤ x ∧ y_size - start_finish_size ≤ y) ∧
      ∀ d, ((Maze.new x_size y_size start_finish_size).cells x y).edges d = false :=
  ⟨rfl, rfl, rfl, rfl, rfl, rfl, fun _ _ => ⟨rfl, rfl, rfl, rfl, rfl, rfl, fun _ => rfl⟩⟩

/-! ### Claim C4: reaching the finish area -/

/-- C4 counterexample: a concrete generation run on the 3×3 maze.  After six
machine steps the single frontier path sits at `(2, 1)` with the goal not yet
reached; the seventh step moves into the finish cell `(2, 2)`: the edge is
recorded, the finish coordinates are stored and `goal_reached` is set, but the
path is NOT removed from the frontier set — `paths` still contains `(2, 1)`. -/
theorem generate_finish_keeps_path :
    (genRun 6 (initState (Maze.new 3 3 1) [0, 0, 0, 2] [false, false, false, false])).map
      (fun st => (st.paths, st.maze.goal_reached)) = some ([(2, 1)], false) ∧
    (genRun 7 (initState (Maze.new 3 3 1) [0, 0, 0, 2] [false, false, false, false])).map
      (fun st => (st.paths, st.maze.goal_reached, st.maze.finish_x, st.maze.finish_y))
      = some ([(2, 1)], true, 2, 2) :=
  ⟨rfl, rfl⟩

/-- C4 amended: when the policy returns a direction whose destination lies in
the finish area, the engine records the edge, marks the destination visited,
stores the finish coordinates and sets `goal_reached`, but it does not retire
the path: the frontier vector keeps its entry at the same position and
coordinates (growing only by a possible branch copy), and the loop moves on
to the next index. -/
theorem genStep_finish_area (st : GenState) (d : Direction) (next : Cell)
    (hlen : st.index < st.paths.length)
    (hm : st.maze.meander
        (st.maze.get_cell (st.paths.getD st.index (0, 0)).1 (st.paths.getD st.index (0, 0)).2)
        (st.rng.headD 0) = Except.ok (some d))
    (hadj : st.maze.get_adjacent
        (st.maze.get_cell (st.paths.getD st.index (0, 0)).1 (st.paths.getD st.index (0, 0)).2)
        d = some next)
    (hfin : next.finish_area = true) :
    ∃ st', genStep st = some st' ∧
      st'.maze.goal_reached = true ∧
      st'.maze.finish_x = next.x ∧ st'.maze.finish_y = next.y ∧
      (st'.maze.cells next.x next.y).visited = true ∧
      (st'.maze.cells (st.maze.get_cell (st.paths.getD st.index (0, 0)).1
          (st.paths.getD st.index (0, 0)).2).x
        (st.maze.get_cell (st.paths.getD st.index (0, 0)).1
          (st.paths.getD st.index (0, 0)).2).y).edges d = true ∧
      st'.paths = (if st.branch.headD false then
          st.paths ++ [((st.maze.get_cell (st.paths.getD st.index (0, 0)).1
            (st.paths.getD st.index (0, 0)).2).x,
            (st.maze.get_cell (st.paths.getD st.index (0, 0)).1
              (st.paths.getD st.index (0, 0)).2).y)]
        else st.paths) ∧
      st'.index = st.index + 1 := by
  have hne : st.paths.isEmpty = false := by
    cases h : st.paths with
    | nil => rw [h] at hlen; simp at hlen
    | cons a l => rfl
  have hnle : ¬ st.paths.length ≤ st.index := Nat.not_le.mpr hlen
  unfold genStep
  rw [hne]
  simp only [Bool.false_eq_true, if_false, hnle, hm, hadj, hfin, if_true]
  set path := st.maze.get_cell (st.paths.getD st.index (0, 0)).1
      (st.paths.getD st.index (0, 0)).2 with hpath
  refine ⟨_, rfl, rfl, rfl, rfl, ?_, ?_, rfl, rfl⟩
  · show (((st.maze.draw_edge path d).mark_as_visited next).cells next.x next.y).visited = true
    unfold Maze.mark_as_visited
    simp [Cell.mark_as_visited]
  · show ((((st.maze.draw_edge path d).mark_as_visited next).cells path.x path.y).edges d) = true
    unfold Maze.mark_as_visited Maze.draw_edge
    by_cases hxy : path.x = next.x ∧ path.y = next.y
    · simp [hxy, Cell.mark_as_visited, Cell.draw_edge]
    · simp [hxy, Cell.draw_edge]

/-- C4 witness: the amended step theorem applied at the concrete state of the
counterexample run (after six machine steps of the 3×3 generation, where the
next step enters the finish area moving north from `(2, 1)`). -/
theorem genStep_finish_area_witness :
    ∃ st', genStep ((genRun 6 (initState (Maze.new 3 3 1) [0, 0, 0, 2]
        [false, false, false, false])).getD default) = some st' ∧
      st'.maze.goal_reached = true :=
  ((genStep_finish_area
      ((genRun 6 (initState (Maze.new 3 3 1) [0, 0, 0, 2]
        [false, false, false, false])).getD default)
      .north
      (((genRun 6 (initState (Maze.new 3 3 1) [0, 0, 0, 2]
        [false, false, false, false])).getD default).maze.get_cell 2 2)
      (by decide) rfl rfl rfl).imp (fun st' h => ⟨h.1, h.2.1⟩))

/-! ### Coordinate-level adjacency facts -/

theorem opposite_opposite (d : Direction) : d.opposite.opposite = d := by
  cases d <;> rfl

/-- Characterization of `adjOpt` as a disjunction over the four directions. -/
theorem adjOpt_char (xs ys x y : Nat) (d : Direction) (t : Nat × Nat) :
    adjOpt xs ys x y d = some t ↔
      (d = .north ∧ y ≠ ys - 1 ∧ t = (x, y + 1)) ∨
      (d = .south ∧ y ≠ 0 ∧ t = (x, y - 1)) ∨
      (d = .east ∧ x ≠ xs - 1 ∧ t = (x + 1, y)) ∨
      (d = .west ∧ x ≠ 0 ∧ t = (x - 1, y)) := by
  cases d <;> simp only [adjOpt] <;> split <;>
    (try simp_all [Prod.ext_iff]) <;> (try omega)

theorem adjOpt_inGrid {xs ys x y : Nat} {d : Direction} {t : Nat × Nat}
    (hx : x < xs) (hy : y < ys) (h : adjOpt xs ys x y d = some t) :
    t.1 < xs ∧ t.2 < ys := by
  rcases (adjOpt_char xs ys x y d t).mp h with
    ⟨_, h2, h3⟩ | ⟨_, h2, h3⟩ | ⟨_, h2, h3⟩ | ⟨_, h2, h3⟩ <;> subst h3 <;>
    constructor <;> simp <;> omega

theorem adjOpt_ne_self {xs ys x y : Nat} {d : Direction} {t : Nat × Nat}
    (h : adjOpt xs ys x y d = some t) : t ≠ (x, y) := by
  rcases (adjOpt_char xs ys x y d t).mp h with
    ⟨_, h2, h3⟩ | ⟨_, h2, h3⟩ | ⟨_, h2, h3⟩ | ⟨_, h2, h3⟩ <;> subst h3 <;>
    simp [Prod.ext_iff] <;> omega

/-- Adjacency inverts: the neighbor's neighbor in the opposite direction is
the original cell. -/
theorem adjOpt_inv {xs ys x y : Nat} {d : Direction} {t : Nat × Nat}
    (hx : x < xs) (hy : y < ys) (h : adjOpt xs ys x y d = some t) :
    adjOpt xs ys t.1 t.2 d.opposite = some (x, y) := by
  rcases (adjOpt_char xs ys x y d t).mp h with
    ⟨h1, h2, h3⟩ | ⟨h1, h2, h3⟩ | ⟨h1, h2, h3⟩ | ⟨h1, h2, h3⟩ <;> subst h1 <;> subst h3 <;>
    rw [adjOpt_char]
  · exact Or.inr (Or.inl ⟨rfl, by omega, by simp⟩)
  · exact Or.inl ⟨rfl, by omega, by simp [Prod.ext_iff]; omega⟩
  · exact Or.inr (Or.inr (Or.inr ⟨rfl, by omega, by simp⟩))
  · exact Or.inr (Or.inr (Or.inl ⟨rfl, by omega, by simp [Prod.ext_iff]; omega⟩))

/-- For a fixed source cell, distinct directions give distinct neighbors. -/
theorem adjOpt_dir_inj {xs ys x y : Nat} {d e : Direction} {t : Nat × Nat}
    (hd : adjOpt xs ys x y d = some t) (he : adjOpt xs ys x y e = some t) : d = e := by
  rcases (adjOpt_char xs ys x y d t).mp hd with
    ⟨h1, h2, h3⟩ | ⟨h1, h2, h3⟩ | ⟨h1, h2, h3⟩ | ⟨h1, h2, h3⟩ <;>
  rcases (adjOpt_char xs ys x y e t).mp he with
    ⟨g1, g2, g3⟩ | ⟨g1, g2, g3⟩ | ⟨g1, g2, g3⟩ | ⟨g1, g2, g3⟩ <;>
  subst h1 <;> subst g1 <;> (try rfl) <;>
  (rw [h3, Prod.ext_iff] at g3; exfalso; omega)

/-! ### Bridging maze operations to coordinates -/

theorem get_adjacent_eq (m : Maze) (c : Cell) (d : Direction) :
    m.get_adjacent c d
      = (adjOpt m.x_size m.y_size c.x c.y d).map (fun t => m.get_cell t.1 t.2) := by
  cases d <;> simp only [Maze.get_adjacent, adjOpt] <;> split <;> simp_all

/-- Decomposition of the per-step maze update: first the edge is drawn at
`c1`, then `c2` is marked visited. -/
theorem cells_after_step (m : Maze) (c1 : Cell) (dir : Direction) (c2 : Cell) (x y : Nat) :
    (((m.draw_edge c1 dir).mark_as_visited c2).cells x y) =
      if x = c2.x ∧ y = c2.y then
        (if x = c1.x ∧ y = c1.y then (m.cells x y).draw_edge dir
         else m.cells x y).mark_as_visited
      else
        (if x = c1.x ∧ y = c1.y then (m.cells x y).draw_edge dir else m.cells x y) := by
  unfold Maze.mark_as_visited Maze.draw_edge
  by_cases h2 : x = c2.x ∧ y = c2.y <;> simp [h2]

theorem draw_mark_scalars (m : Maze) (c1 : Cell) (dir : Direction) (c2 : Cell) :
    ((m.draw_edge c1 dir).mark_as_visited c2).x_size = m.x_size ∧
    ((m.draw_edge c1 dir).mark_as_visited c2).y_size = m.y_size ∧
    ((m.draw_edge c1 dir).mark_as_visited c2).strategies = m.strategies ∧
    ((m.draw_edge c1 dir).mark_as_visited c2).goal_reached = m.goal_reached ∧
    ((m.draw_edge c1 dir).mark_as_visited c2).start_x = m.start_x ∧
    ((m.draw_edge c1 dir).mark_as_visited c2).start_y = m.start_y ∧
    ((m.draw_edge c1 dir).mark_as_visited c2).start_finish_size = m.start_finish_size :=
  ⟨rfl, rfl, rfl, rfl, rfl, rfl, rfl⟩

theorem incomingFlag_iff (m : Maze) (x y : Nat) (d : Direction)
    (hcx : (m.cells x y).x = x) (hcy : (m.cells x y).y = y) :
    m.incomingFlag x y d = true ↔
      ∃ t, adjOpt m.x_size m.y_size x y d = some t ∧
        (m.cells t.1 t.2).edges d.opposite = true := by
  unfold Maze.incomingFlag
  rw [get_adjacent_eq]
  unfold Maze.get_cell
  rw [hcx, hcy]
  cases h : adjOpt m.x_size m.y_size x y d with
  | none => simp
  | some t => simp [Maze.get_cell, Cell.has_edge]

/-- The previous-direction scan expressed through the per-direction flags, in
the scan order North, East, South, West. -/
theorem get_previous_direction_eq (m : Maze) (x y : Nat) :
    m.get_previous_direction (m.get_cell x y) =
      (if m.incomingFlag x y .north then some Direction.north.opposite
       else if m.incomingFlag x y .east then some Direction.east.opposite
       else if m.incomingFlag x y .south then some Direction.south.opposite
       else if m.incomingFlag x y .west then some Direction.west.opposite
       else none) := by
  unfold Maze.get_previous_direction Maze.incomingFlag
  dsimp only
  cases hN : m.get_adjacent (m.get_cell x y) .north <;>
    cases hE : m.get_adjacent (m.get_cell x y) .east <;>
      cases hS : m.get_adjacent (m.get_cell x y) .south <;>
        cases hW : m.get_adjacent (m.get_cell x y) .west <;>
          simp only [hN, hE, hS, hW] <;> split_ifs <;> simp_all

/-! ### Consequences of the generation invariant -/

theorem inv_flag_edge {xs ys sfs : Nat} {st : GenState} (hinv : GenInv xs ys sfs st)
    {x y : Nat} {d : Direction} (hflag : st.maze.incomingFlag x y d = true) :
    ∃ t, adjOpt xs ys x y d = some t ∧ (st.maze.cells t.1 t.2).edges d.opposite = true := by
  have h := (incomingFlag_iff st.maze x y d (hinv.hcx x y) (hinv.hcy x y)).mp hflag
  rwa [hinv.hx, hinv.hy] at h

theorem inv_flag_of_edge {xs ys sfs : Nat} {st : GenState} (hinv : GenInv xs ys sfs st)
    {x y : Nat} {d : Direction} {t : Nat × Nat}
    (hadj : adjOpt xs ys x y d = some t)
    (he : (st.maze.cells t.1 t.2).edges d.opposite = true) :
    st.maze.incomingFlag x y d = true := by
  rw [incomingFlag_iff st.maze x y d (hinv.hcx x y) (hinv.hcy x y), hinv.hx, hinv.hy]
  exact ⟨t, hadj, he⟩

theorem inv_unvisited_flags {xs ys sfs : Nat} {st : GenState} (hinv : GenInv xs ys sfs st)
    {x y : Nat} (hx : x < xs) (hy : y < ys)
    (hv : (st.maze.cells x y).visited = false) :
    ∀ d, st.maze.incomingFlag x y d = false := by
  intro d
  cases hc : st.maze.incomingFlag x y d with
  | false => rfl
  | true =>
      exfalso
      obtain ⟨t, hadj, hedge'⟩ := inv_flag_edge hinv hc
      obtain ⟨_, t', hadj', hvis', _, _⟩ := hinv.hedge t.1 t.2 d.opposite hedge'
      have hback := adjOpt_inv hx hy hadj
      rw [hadj'] at hback
      injection hback with hback
      rw [hback] at hvis'
      simp only at hvis'
      rw [hvis'] at hv
      exact Bool.true_eq_false.mp hv

theorem inv_unvisited_inDeg0 {xs ys sfs : Nat} {st : GenState} (hinv : GenInv xs ys sfs st)
    {x y : Nat} (hx : x < xs) (hy : y < ys)
    (hv : (st.maze.cells x y).visited = false) : st.maze.inDeg x y = 0 := by
  have hflags := inv_unvisited_flags hinv hx hy hv
  unfold Maze.inDeg
  rw [hflags .north, hflags .east, hflags .south, hflags .west]
  simp

theorem inDeg_one_cases (m : Maze) (x y : Nat) (h : m.inDeg x y = 1) :
    ∃ e, m.incomingFlag x y e = true ∧
      ∀ e', m.incomingFlag x y e' = true → e' = e := by
  unfold Maze.inDeg at h
  cases hN : m.incomingFlag x y .north <;> cases hE : m.incomingFlag x y .east <;>
    cases hS : m.incomingFlag x y .south <;> cases hW : m.incomingFlag x y .west <;>
    rw [hN, hE, hS, hW] at h <;> simp at h <;>
    first
    | exact ⟨.north, hN, by intro e' he'; cases e' <;> simp_all⟩
    | exact ⟨.east, hE, by intro e' he'; cases e' <;> simp_all⟩
    | exact ⟨.south, hS, by intro e' he'; cases e' <;> simp_all⟩
    | exact ⟨.west, hW, by intro e' he'; cases e' <;> simp_all⟩

theorem gpd_unique (m : Maze) (x y : Nat) (e : Direction)
    (hflag : m.incomingFlag x y e = true)
    (huniq : ∀ e', m.incomingFlag x y e' = true → e' = e) :
    m.get_previous_direction (m.get_cell x y) = some e.opposite := by
  have hother : ∀ e', e' ≠ e → m.incomingFlag x y e' = false := by
    intro e' hne
    cases hf : m.incomingFlag x y e' with
    | false => rfl
    | true => exact absurd (huniq e' hf) hne
  rw [get_previous_direction_eq]
  cases e
  · simp [hflag]
  · simp [hflag, hother .north (by decide)]
  · simp [hflag, hother .north (by decide), hother .east (by decide)]
  · simp [hflag, hother .north (by decide), hother .east (by decide),
          hother .south (by decide)]

/-- On a visited in-grid cell the backward step is defined: there is a unique
incoming edge, `get_previous_cell` follows it, and the predecessor is a
visited cell or the start cell. -/
theorem inv_gpc_some {xs ys sfs : Nat} {st : GenState} (hinv : GenInv xs ys sfs st)
    {x y : Nat} (hx : x < xs) (hy : y < ys)
    (hvis : (st.maze.cells x y).visited = true) :
    ∃ e t, st.maze.incomingFlag x y e = true ∧ adjOpt xs ys x y e = some t ∧
      (st.maze.cells t.1 t.2).edges e.opposite = true ∧
      st.maze.get_previous_cell? (st.maze.get_cell x y)
        = some (st.maze.get_cell t.1 t.2) ∧
      ((st.maze.cells t.1 t.2).visited = true ∨ (t.1 = 0 ∧ t.2 = sfs - 1)) ∧
      (t.1 < xs ∧ t.2 < ys) := by
  obtain ⟨e, hflag, huniq⟩ := inDeg_one_cases st.maze x y (hinv.hdeg x y hx hy hvis)
  obtain ⟨t, hadj, hedge'⟩ := inv_flag_edge hinv hflag
  have htg : t.1 < xs ∧ t.2 < ys := adjOpt_inGrid hx hy hadj
  obtain ⟨_, t', hadj', _, _, hsrc⟩ := hinv.hedge t.1 t.2 e.opposite hedge'
  have hback := adjOpt_inv hx hy hadj
  rw [hadj'] at hback
  injection hback with hback
  refine ⟨e, t, hflag, hadj, hedge', ?_, ?_, htg⟩
  · unfold Maze.get_previous_cell?
    rw [gpd_unique st.maze x y e hflag huniq]
    dsimp only
    rw [opposite_opposite]
    rw [get_adjacent_eq]
    unfold Maze.get_cell
    rw [hinv.hcx, hinv.hcy, hinv.hx, hinv.hy, hadj]
    simp only [Option.map_some']
    rw [hinv.hcx, hinv.hcy]
  · rcases hsrc with hsrc | hsrc
    · exact Or.inl hsrc
    · exact Or.inr hsrc

theorem inv_no_out_edges {xs ys sfs : Nat} {st : GenState} (hinv : GenInv xs ys sfs st)
    {x y : Nat} (hv : (st.maze.cells x y).visited = false)
    (hns : ¬(x = 0 ∧ y = sfs - 1)) :
    ∀ d, (st.maze.cells x y).edges d = false := by
  intro d
  cases hf : (st.maze.cells x y).edges d with
  | false => rfl
  | true =>
      exfalso
      obtain ⟨_, _, _, _, _, hsrc⟩ := hinv.hedge x y d hf
      rcases hsrc with hsrc | hsrc
      · rw [hsrc] at hv; exact Bool.true_eq_false.mp hv
      · exact hns hsrc

/-- Coordinate form of a successful validity check under the invariant. -/
theorem inv_is_valid_coords {xs ys sfs : Nat} {st : GenState} (hinv : GenInv xs ys sfs st)
    {x y : Nat} {d : Direction}
    (hvalid : st.maze.is_valid (st.maze.get_cell x y) d = true) :
    ∃ t, adjOpt xs ys x y d = some t ∧
      (st.maze.cells t.1 t.2).visited = false ∧
      ¬(t.1 < sfs ∧ t.2 < sfs) ∧
      ((st.maze.cells t.1 t.2).finish_area = true → st.maze.goal_reached = false) := by
  obtain ⟨target, hadj, hv, hsa, hfin⟩ := (is_valid_true_iff _ _ _).mp hvalid
  rw [get_adjacent_eq] at hadj
  unfold Maze.get_cell at hadj
  rw [hinv.hcx, hinv.hcy, hinv.hx, hinv.hy] at hadj
  cases hopt : adjOpt xs ys x y d with
  | none => rw [hopt] at hadj; exact absurd hadj (by simp)
  | some t =>
      rw [hopt] at hadj
      simp only [Option.map_some', Option.some.injEq] at hadj
      subst hadj
      refine ⟨t, rfl, hv, ?_, ?_⟩
      · have := hinv.hsa t.1 t.2
        rw [this] at hsa
        simpa using hsa
      · intro hfa
        rcases hfin with hfin | hfin
        · rw [hfa] at hfin; exact absurd hfin (by simp)
        · exact hfin

/-! ### Shape analysis of one generation step -/

theorem cellTypeOf_cases (xs ys x y : Nat) :
    cellTypeOf xs ys x y = 0 ∨ cellTypeOf xs ys x y = 1 := by
  unfold cellTypeOf
  split_ifs <;> simp

theorem meander_ok_some_valid (m : Maze) (current : Cell) (r : Nat) (d : Direction)
    (h : m.meander current r = Except.ok (some d)) : m.is_valid current d = true := by
  unfold Maze.meander at h
  exact (List.mem_filter.mp (get_direction_ok_some_mem _ m current r d h)).2

theorem inv_meander_ne_error {xs ys sfs : Nat} {st : GenState}
    (hinv : GenInv xs ys sfs st) (x y r : Nat) :
    st.maze.meander (st.maze.get_cell x y) r ≠ Except.error () := by
  unfold Maze.meander
  have hct : (st.maze.get_cell x y).cell_type = cellTypeOf xs ys x y := hinv.hct x y
  rcases cellTypeOf_cases xs ys x y with h | h <;>
    · rw [h] at hct
      rw [hct, hinv.hstrat]
      exact get_direction_ne_error _ _ _ _ (by simp [MeanderStrategy.new]) (by simp [MeanderStrategy.new])

/-- Complete case analysis of a successful `genStep`: final state, inner-loop
restart, path retirement at the start cell, backtracking, or an advance
(into the finish area or into an ordinary cell). -/
theorem genStep_cases {st st' : GenState} (h : genStep st = some st') :
    (st.paths.isEmpty = true ∧ st' = st) ∨
    (st.paths.isEmpty = false ∧ st.paths.length ≤ st.index ∧
      st' = { st with index := 0 }) ∨
    (∃ p, st.index < st.paths.length ∧ st.paths.getD st.index (0, 0) = p ∧
      st.maze.meander (st.maze.get_cell p.1 p.2) (st.rng.headD 0) = Except.ok none ∧
      ((st.maze.get_cell p.1 p.2).x = st.maze.start_x ∧
        (st.maze.get_cell p.1 p.2).y = st.maze.start_y) ∧
      st' = { st with paths := st.paths.eraseIdx st.index, rng := st.rng.tail }) ∨
    (∃ p previous, st.index < st.paths.length ∧ st.paths.getD st.index (0, 0) = p ∧
      st.maze.meander (st.maze.get_cell p.1 p.2) (st.rng.headD 0) = Except.ok none ∧
      ¬((st.maze.get_cell p.1 p.2).x = st.maze.start_x ∧
        (st.maze.get_cell p.1 p.2).y = st.maze.start_y) ∧
      st.maze.get_previous_cell? (st.maze.get_cell p.1 p.2) = some previous ∧
      st' = { st with paths := st.paths.set st.index (previous.x, previous.y),
                      index := st.index + 1, rng := st.rng.tail }) ∨
    (∃ p d next, st.index < st.paths.length ∧ st.paths.getD st.index (0, 0) = p ∧
      st.maze.meander (st.maze.get_cell p.1 p.2) (st.rng.headD 0)
        = Except.ok (some d) ∧
      st.maze.get_adjacent (st.maze.get_cell p.1 p.2) d = some next ∧
      ((next.finish_area = true ∧
        st' = { st with
          maze := { (st.maze.draw_edge (st.maze.get_cell p.1 p.2) d).mark_as_visited next
                    with finish_x := next.x, finish_y := next.y, goal_reached := true },
          paths := (if st.branch.headD false then
              st.paths ++ [((st.maze.get_cell p.1 p.2).x, (st.maze.get_cell p.1 p.2).y)]
            else st.paths),
          index := st.index + 1, rng := st.rng.tail, branch := st.branch.tail }) ∨
       (next.finish_area = false ∧
        st' = { st with
          maze := (st.maze.draw_edge (st.maze.get_cell p.1 p.2) d).mark_as_visited next,
          paths := (if st.branch.headD false then
              st.paths ++ [((st.maze.get_cell p.1 p.2).x, (st.maze.get_cell p.1 p.2).y)]
            else st.paths).set st.index (next.x, next.y),
          index := st.index + 1, rng := st.rng.tail, branch := st.branch.tail }))) := by
  unfold genStep at h
  by_cases hemp : st.paths.isEmpty
  · rw [if_pos hemp] at h
    injection h with h
    exact Or.inl ⟨hemp, h.symm⟩
  · rw [if_neg hemp] at h
    simp only [Bool.not_eq_true] at hemp
    by_cases hidx : st.paths.length ≤ st.index
    · rw [if_pos hidx] at h
      injection h with h
      exact Or.inr (Or.inl ⟨hemp, hidx, h.symm⟩)
    · rw [if_neg hidx] at h
      push_neg at hidx
      dsimp only at h
      cases hm : st.maze.meander
          (st.maze.get_cell (st.paths.getD st.index (0, 0)).1
            (st.paths.getD st.index (0, 0)).2) (st.rng.headD 0) with
      | error e => rw [hm] at h; exact absurd h (by simp)
      | ok od =>
          rw [hm] at h
          cases od with
          | none =>
              dsimp only at h
              by_cases hstart : (st.maze.get_cell (st.paths.getD st.index (0, 0)).1
                  (st.paths.getD st.index (0, 0)).2).x = st.maze.start_x ∧
                  (st.maze.get_cell (st.paths.getD st.index (0, 0)).1
                    (st.paths.getD st.index (0, 0)).2).y = st.maze.start_y
              · rw [if_pos hstart] at h
                injection h with h
                exact Or.inr (Or.inr (Or.inl ⟨_, hidx, rfl, hm, hstart, h.symm⟩))
              · rw [if_neg hstart] at h
                cases hprev : st.maze.get_previous_cell?
                    (st.maze.get_cell (st.paths.getD st.index (0, 0)).1
                      (st.paths.getD st.index (0, 0)).2) with
                | none => rw [hprev] at h; exact absurd h (by simp)
                | some previous =>
                    rw [hprev] at h
                    dsimp only at h
                    injection h with h
                    exact Or.inr (Or.inr (Or.inr (Or.inl
                      ⟨_, previous, hidx, rfl, hm, hstart, hprev, h.symm⟩)))
          | some d =>
              dsimp only at h
              cases hadj : st.maze.get_adjacent
                  (st.maze.get_cell (st.paths.getD st.index (0, 0)).1
                    (st.paths.getD st.index (0, 0)).2) d with
              | none => rw [hadj] at h; exact absurd h (by simp)
              | some next =>
                  rw [hadj] at h
                  dsimp only at h
                  by_cases hfin : next.finish_area = true
                  · rw [if_pos hfin] at h
                    injection h with h
                    exact Or.inr (Or.inr (Or.inr (Or.inr
                      ⟨_, d, next, hidx, rfl, hm, hadj, Or.inl ⟨hfin, h.symm⟩⟩)))
                  · rw [if_neg hfin] at h
                    injection h with h
                    refine Or.inr (Or.inr (Or.inr (Or.inr
                      ⟨_, d, next, hidx, rfl, hm, hadj, Or.inr ⟨?_, h.symm⟩⟩)))
                    simpa using hfin

/-! ### The edge-drawing move and its effect on the grid -/

/-- Decomposition of the facts available when a move passes validation. -/
theorem advance_core {xs ys sfs : Nat} {st : GenState} {p : Nat × Nat} {d : Direction}
    {next : Cell} (hcfg : validConfig xs ys sfs) (hinv : GenInv xs ys sfs st)
    (hpmem : p ∈ st.paths)
    (hvalid : st.maze.is_valid (st.maze.get_cell p.1 p.2) d = true)
    (hadj : st.maze.get_adjacent (st.maze.get_cell p.1 p.2) d = some next) :
    ∃ t, adjOpt xs ys p.1 p.2 d = some t ∧
      next = st.maze.get_cell t.1 t.2 ∧
      next.x = t.1 ∧ next.y = t.2 ∧
      (t.1 < xs ∧ t.2 < ys) ∧ (p.1 < xs ∧ p.2 < ys) ∧
      (st.maze.cells t.1 t.2).visited = false ∧
      ¬(t.1 < sfs ∧ t.2 < sfs) ∧
      ¬(t.1 = 0 ∧ t.2 = sfs - 1) ∧
      ((st.maze.cells t.1 t.2).finish_area = true → st.maze.goal_reached = false) ∧
      (st.maze.cells p.1 p.2).edges d = false ∧
      (∀ e, (st.maze.cells t.1 t.2).edges e = false) ∧
      t ≠ p ∧
      ((p.1 = 0 ∧ p.2 = sfs - 1) ∨ (st.maze.cells p.1 p.2).visited = true) := by
  obtain ⟨hpg, hpvs⟩ := hinv.hpaths p hpmem
  obtain ⟨t, hadjc, hnvis, hnstart, hnfin⟩ := inv_is_valid_coords hinv hvalid
  have htg : t.1 < xs ∧ t.2 < ys := adjOpt_inGrid hpg.1 hpg.2 hadjc
  have hnexteq : next = st.maze.get_cell t.1 t.2 := by
    rw [get_adjacent_eq] at hadj
    unfold Maze.get_cell at hadj
    rw [hinv.hcx, hinv.hcy, hinv.hx, hinv.hy, hadjc] at hadj
    simpa using hadj.symm
  have hnx : next.x = t.1 := by rw [hnexteq]; exact hinv.hcx t.1 t.2
  have hny : next.y = t.2 := by rw [hnexteq]; exact hinv.hcy t.1 t.2
  have hnotstart : ¬(t.1 = 0 ∧ t.2 = sfs - 1) := by
    obtain ⟨hs1, _, _⟩ := hcfg
    rintro ⟨h1, h2⟩
    exact hnstart ⟨by omega, by omega⟩
  have hpedge : (st.maze.cells p.1 p.2).edges d = false := by
    cases hc : (st.maze.cells p.1 p.2).edges d with
    | false => rfl
    | true =>
        exfalso
        obtain ⟨_, t', hadj', hvis', _, _⟩ := hinv.hedge p.1 p.2 d hc
        rw [hadjc] at hadj'
        injection hadj' with hadj'
        rw [← hadj'] at hvis'
        rw [hvis'] at hnvis
        exact Bool.true_eq_false.mp hnvis
  refine ⟨t, hadjc, hnexteq, hnx, hny, htg, hpg, hnvis, hnstart, hnotstart, hnfin,
    hpedge, inv_no_out_edges hinv hnvis hnotstart, ?_, hpvs⟩
  exact fun he => (adjOpt_ne_self hadjc) (by rw [he])

/-- Pointwise description of the grid after drawing the edge at `p` toward
`d` and marking the destination `t` visited. -/
theorem cells_move {st : GenState} {p t : Nat × Nat} {d : Direction} {next : Cell}
    (hcx : ∀ a b, (st.maze.cells a b).x = a) (hcy : ∀ a b, (st.maze.cells a b).y = b)
    (hnx : next.x = t.1) (hny : next.y = t.2) (hne : t ≠ p) :
    ∀ a b, (((st.maze.draw_edge (st.maze.get_cell p.1 p.2) d).mark_as_visited next).cells a b) =
      if a = t.1 ∧ b = t.2 then (st.maze.cells a b).mark_as_visited
      else if a = p.1 ∧ b = p.2 then (st.maze.cells a b).draw_edge d
      else st.maze.cells a b := by
  intro a b
  rw [cells_after_step]
  rw [hnx, hny]
  unfold Maze.get_cell
  rw [hcx, hcy]
  by_cases h2 : a = t.1 ∧ b = t.2
  · rw [if_pos h2, if_pos h2]
    have hnp : ¬(a = p.1 ∧ b = p.2) := by
      rintro ⟨g1, g2⟩
      exact hne (by rw [Prod.ext_iff]; exact ⟨by omega, by omega⟩)
    rw [if_neg hnp]
  · rw [if_neg h2, if_neg h2]

/-- Visited flags after the move: the destination becomes visited, everything
else is unchanged. -/
theorem visited_move {st : GenState} {p t : Nat × Nat} {d : Direction} {next : Cell}
    (hcx : ∀ a b, (st.maze.cells a b).x = a) (hcy : ∀ a b, (st.maze.cells a b).y = b)
    (hnx : next.x = t.1) (hny : next.y = t.2) (hne : t ≠ p) :
    ∀ a b, ((((st.maze.draw_edge (st.maze.get_cell p.1 p.2) d).mark_as_visited next).cells a b).visited = true ↔
      ((st.maze.cells a b).visited = true ∨ (a = t.1 ∧ b = t.2))) := by
  intro a b
  rw [cells_move hcx hcy hnx hny hne]
  have hne' : ¬(p.1 = t.1 ∧ p.2 = t.2) := by
    rintro ⟨g1, g2⟩
    exact hne (by rw [Prod.ext_iff]; exact ⟨g1.symm, g2.symm⟩)
  by_cases h2 : a = t.1 ∧ b = t.2
  · simp [h2, Cell.mark_as_visited]
  · by_cases h1 : a = p.1 ∧ b = p.2 <;> simp [h1, h2, hne', Cell.draw_edge]

/-- Edge flags after the move: the new edge is added at `p`, everything else
is unchanged. -/
theorem edges_move {st : GenState} {p t : Nat × Nat} {d : Direction} {next : Cell}
    (hcx : ∀ a b, (st.maze.cells a b).x = a) (hcy : ∀ a b, (st.maze.cells a b).y = b)
    (hnx : next.x = t.1) (hny : next.y = t.2) (hne : t ≠ p) :
    ∀ a b e, ((((st.maze.draw_edge (st.maze.get_cell p.1 p.2) d).mark_as_visited next).cells a b).edges e = true ↔
      ((st.maze.cells a b).edges e = true ∨ (a = p.1 ∧ b = p.2 ∧ e = d))) := by
  intro a b e
  rw [cells_move hcx hcy hnx hny hne]
  by_cases h2 : a = t.1 ∧ b = t.2
  · have hnp : ¬(a = p.1 ∧ b = p.2) := by
      rintro ⟨g1, g2⟩
      exact hne (by rw [Prod.ext_iff]; rcases h2 with ⟨e1, e2⟩; exact ⟨by omega, by omega⟩)
    simp only [if_pos h2, Cell.mark_as_visited]
    constructor
    · intro h; exact Or.inl h
    · rintro (h | ⟨g1, g2, _⟩)
      · exact h
      · exact absurd ⟨g1, g2⟩ hnp
  · rw [if_neg h2]
    by_cases h1 : a = p.1 ∧ b = p.2
    · rw [if_pos h1]
      unfold Cell.draw_edge
      dsimp only
      by_cases he : e = d
      · simp [he, h1]
      · simp [he, h1]
    · rw [if_neg h1]
      constructor
      · intro h; exact Or.inl h
      · rintro (h | ⟨g1, g2, _⟩)
        · exact h
        · exact absurd ⟨g1, g2⟩ h1

/-- Immutable cell fields are untouched by the move. -/
theorem fields_move {st : GenState} {p t : Nat × Nat} {d : Direction} {next : Cell}
    (hcx : ∀ a b, (st.maze.cells a b).x = a) (hcy : ∀ a b, (st.maze.cells a b).y = b)
    (hnx : next.x = t.1) (hny : next.y = t.2) (hne : t ≠ p) :
    ∀ a b, ((((st.maze.draw_edge (st.maze.get_cell p.1 p.2) d).mark_as_visited next).cells a b).x = (st.maze.cells a b).x ∧
      (((st.maze.draw_edge (st.maze.get_cell p.1 p.2) d).mark_as_visited next).cells a b).y = (st.maze.cells a b).y ∧
      (((st.maze.draw_edge (st.maze.get_cell p.1 p.2) d).mark_as_visited next).cells a b).cell_type = (st.maze.cells a b).cell_type ∧
      (((st.maze.draw_edge (st.maze.get_cell p.1 p.2) d).mark_as_visited next).cells a b).start_area = (st.maze.cells a b).start_area ∧
      (((st.maze.draw_edge (st.maze.get_cell p.1 p.2) d).mark_as_visited next).cells a b).finish_area = (st.maze.cells a b).finish_area) := by
  intro a b
  rw [cells_move hcx hcy hnx hny hne]
  have hne' : ¬(p.1 = t.1 ∧ p.2 = t.2) := by
    rintro ⟨g1, g2⟩
    exact hne (by rw [Prod.ext_iff]; exact ⟨g1.symm, g2.symm⟩)
  by_cases h2 : a = t.1 ∧ b = t.2
  · simp [h2, Cell.mark_as_visited]
  · by_cases h1 : a = p.1 ∧ b = p.2 <;> simp [h1, h2, hne', Cell.draw_edge]

/-- Cardinality of the visited set grows by one at the freshly visited
destination. -/
theorem visitedCount_move {xs ys : Nat} {m m' : Maze} {t : Nat × Nat}
    (hch : ∀ a b, ((m'.cells a b).visited = true ↔
      ((m.cells a b).visited = true ∨ (a = t.1 ∧ b = t.2))))
    (ht1 : t.1 < xs) (ht2 : t.2 < ys) (hun : (m.cells t.1 t.2).visited = false) :
    visitedCount xs ys m' = visitedCount xs ys m + 1 := by
  unfold visitedCount
  have hset : ((Finset.range xs) ×ˢ (Finset.range ys)).filter
      (fun q => (m'.cells q.1 q.2).visited = true)
      = insert t (((Finset.range xs) ×ˢ (Finset.range ys)).filter
        (fun q => (m.cells q.1 q.2).visited = true)) := by
    ext q
    simp only [Finset.mem_filter, Finset.mem_insert, Finset.mem_product,
      Finset.mem_range]
    constructor
    · rintro ⟨⟨hq1, hq2⟩, hv⟩
      rcases (hch q.1 q.2).mp hv with h | h
      · exact Or.inr ⟨⟨hq1, hq2⟩, h⟩
      · exact Or.inl (by rw [Prod.ext_iff]; exact ⟨h.1, h.2⟩)
    · rintro (h | ⟨⟨hq1, hq2⟩, hv⟩)
      · rw [h]
        exact ⟨⟨ht1, ht2⟩, (hch t.1 t.2).mpr (Or.inr ⟨rfl, rfl⟩)⟩
      · exact ⟨⟨hq1, hq2⟩, (hch q.1 q.2).mpr (Or.inl hv)⟩
  rw [hset]
  rw [Finset.card_insert_of_not_mem]
  intro hc
  rw [Finset.mem_filter] at hc
  rw [hc.2] at hun
  exact Bool.true_eq_false.mp hun

/-- Incoming flags after the move: only the destination acquires a new
incoming edge, in the direction of travel. -/
theorem flag_move {xs ys sfs : Nat} {st : GenState} (hinv : GenInv xs ys sfs st)
    {p t : Nat × Nat} {d : Direction} {next : Cell}
    (hadjc : adjOpt xs ys p.1 p.2 d = some t) (hpg : p.1 < xs ∧ p.2 < ys)
    (hnx : next.x = t.1) (hny : next.y = t.2) (hne : t ≠ p) :
    ∀ a b e, a < xs → b < ys →
      (((st.maze.draw_edge (st.maze.get_cell p.1 p.2) d).mark_as_visited next).incomingFlag a b e = true ↔
        (st.maze.incomingFlag a b e = true ∨ ((a, b) = t ∧ e = d.opposite))) := by
  intro a b e ha hb
  have hcx2 : ∀ u v, ((((st.maze.draw_edge (st.maze.get_cell p.1 p.2) d).mark_as_visited next).cells u v)).x = u := by
    intro u v
    rw [(fields_move hinv.hcx hinv.hcy hnx hny hne u v).1]
    exact hinv.hcx u v
  have hcy2 : ∀ u v, ((((st.maze.draw_edge (st.maze.get_cell p.1 p.2) d).mark_as_visited next).cells u v)).y = v := by
    intro u v
    rw [(fields_move hinv.hcx hinv.hcy hnx hny hne u v).2.1]
    exact hinv.hcy u v
  rw [incomingFlag_iff _ a b e (hcx2 a b) (hcy2 a b)]
  rw [incomingFlag_iff _ a b e (hinv.hcx a b) (hinv.hcy a b)]
  rw [(draw_mark_scalars st.maze (st.maze.get_cell p.1 p.2) d next).1,
      (draw_mark_scalars st.maze (st.maze.get_cell p.1 p.2) d next).2.1,
      hinv.hx, hinv.hy]
  constructor
  · rintro ⟨u, hu, he⟩
    rcases (edges_move hinv.hcx hinv.hcy hnx hny hne u.1 u.2 e.opposite).mp he with h | ⟨h1, h2, h3⟩
    · exact Or.inl ⟨u, hu, h⟩
    · right
      have heq : e = d.opposite := by rw [← h3, opposite_opposite]
      refine ⟨?_, heq⟩
      have hup : u = p := by rw [Prod.ext_iff]; exact ⟨h1, h2⟩
      subst hup
      rw [heq] at hu
      have hback := adjOpt_inv ha hb hu
      rw [opposite_opposite] at hback
      have hst : some (a, b) = some t := by rw [← hback, hadjc]
      exact Option.some_inj.mp hst
  · rintro (⟨u, hu, he⟩ | ⟨h1, h2⟩)
    · exact ⟨u, hu, (edges_move hinv.hcx hinv.hcy hnx hny hne u.1 u.2 e.opposite).mpr (Or.inl he)⟩
    · refine ⟨p, ?_, ?_⟩
      · have := adjOpt_inv hpg.1 hpg.2 hadjc
        rw [← h1] at this
        rw [h2]
        simpa using this
      · refine (edges_move hinv.hcx hinv.hcy hnx hny hne p.1 p.2 e.opposite).mpr (Or.inr ⟨rfl, rfl, ?_⟩)
        rw [h2, opposite_opposite]

/-- Away from the destination the in-degree is unchanged by the move. -/
theorem inDeg_move_other {xs ys sfs : Nat} {st : GenState} (hinv : GenInv xs ys sfs st)
    {p t : Nat × Nat} {d : Direction} {next : Cell}
    (hadjc : adjOpt xs ys p.1 p.2 d = some t) (hpg : p.1 < xs ∧ p.2 < ys)
    (hnx : next.x = t.1) (hny : next.y = t.2) (hne : t ≠ p)
    {a b : Nat} (ha : a < xs) (hb : b < ys) (hab : ¬(a = t.1 ∧ b = t.2)) :
    ((st.maze.draw_edge (st.maze.get_cell p.1 p.2) d).mark_as_visited next).inDeg a b
      = st.maze.inDeg a b := by
  have hf : ∀ e, ((st.maze.draw_edge (st.maze.get_cell p.1 p.2) d).mark_as_visited next).incomingFlag a b e
      = st.maze.incomingFlag a b e := by
    intro e
    cases hold : st.maze.incomingFlag a b e with
    | true =>
        exact (flag_move hinv hadjc hpg hnx hny hne a b e ha hb).mpr (Or.inl hold)
    | false =>
        cases hnew : ((st.maze.draw_edge (st.maze.get_cell p.1 p.2) d).mark_as_visited next).incomingFlag a b e with
        | false => rfl
        | true =>
            exfalso
            rcases (flag_move hinv hadjc hpg hnx hny hne a b e ha hb).mp hnew with h | ⟨h1, _⟩
            · rw [h] at hold; exact Bool.true_eq_false.mp hold
            · rw [Prod.ext_iff] at h1
              exact hab ⟨h1.1, h1.2⟩
  unfold Maze.inDeg
  rw [hf .north, hf .east, hf .south, hf .west]

/-- The destination's in-degree becomes exactly one after the move. -/
theorem inDeg_move_target {xs ys sfs : Nat} {st : GenState} (hinv : GenInv xs ys sfs st)
    {p t : Nat × Nat} {d : Direction} {next : Cell}
    (hadjc : adjOpt xs ys p.1 p.2 d = some t) (hpg : p.1 < xs ∧ p.2 < ys)
    (hnx : next.x = t.1) (hny : next.y = t.2) (hne : t ≠ p)
    (htg : t.1 < xs ∧ t.2 < ys) (hun : (st.maze.cells t.1 t.2).visited = false) :
    ((st.maze.draw_edge (st.maze.get_cell p.1 p.2) d).mark_as_visited next).inDeg t.1 t.2 = 1 := by
  have holdf := inv_unvisited_flags hinv htg.1 htg.2 hun
  have hf : ∀ e, ((st.maze.draw_edge (st.maze.get_cell p.1 p.2) d).mark_as_visited next).incomingFlag t.1 t.2 e
      = (if e = d.opposite then true else false) := by
    intro e
    by_cases he : e = d.opposite
    · rw [if_pos he]
      exact (flag_move hinv hadjc hpg hnx hny hne t.1 t.2 e htg.1 htg.2).mpr (Or.inr ⟨rfl, he⟩)
    · rw [if_neg he]
      cases hnew : ((st.maze.draw_edge (st.maze.get_cell p.1 p.2) d).mark_as_visited next).incomingFlag t.1 t.2 e with
      | false => rfl
      | true =>
          exfalso
          rcases (flag_move hinv hadjc hpg hnx hny hne t.1 t.2 e htg.1 htg.2).mp hnew with h | ⟨_, h2⟩
          · rw [holdf e] at h; exact Bool.false_ne_true h
          · exact he h2
  unfold Maze.inDeg
  rw [hf .north, hf .east, hf .south, hf .west]
  cases hdo : d.opposite <;> simp [hdo]

/-- In-degree only depends on the cell grid and the grid dimensions. -/
theorem inDeg_congr {m m' : Maze} (hc : m'.cells = m.cells)
    (hx : m'.x_size = m.x_size) (hy : m'.y_size = m.y_size) :
    ∀ a b, m'.inDeg a b = m.inDeg a b := by
  have hga : ∀ (c : Cell) e, m'.get_adjacent c e = m.get_adjacent c e := by
    intro c e
    cases e <;> simp only [Maze.get_adjacent, Maze.get_cell, hc, hx, hy]
  have hfl : ∀ a b e, m'.incomingFlag a b e = m.incomingFlag a b e := by
    intro a b e
    unfold Maze.incomingFlag Maze.get_cell
    rw [hc, hga]
  intro a b
  unfold Maze.inDeg
  rw [hfl, hfl, hfl, hfl]

/-- Preservation of the generation invariant by a validated move.  The new
state is only constrained through hypotheses, so the lemma covers both the
ordinary advance and the finish-area advance of `generate`. -/
theorem inv_move {xs ys sfs : Nat} {st stNew : GenState} {p : Nat × Nat}
    {d : Direction} {next : Cell}
    (hcfg : validConfig xs ys sfs) (hinv : GenInv xs ys sfs st)
    (hpmem : p ∈ st.paths)
    (hvalid : st.maze.is_valid (st.maze.get_cell p.1 p.2) d = true)
    (hadj : st.maze.get_adjacent (st.maze.get_cell p.1 p.2) d = some next)
    (hmz : stNew.maze.cells
      = ((st.maze.draw_edge (st.maze.get_cell p.1 p.2) d).mark_as_visited next).cells)
    (hsc : stNew.maze.x_size = st.maze.x_size ∧ stNew.maze.y_size = st.maze.y_size ∧
           stNew.maze.strategies = st.maze.strategies ∧
           stNew.maze.start_x = st.maze.start_x ∧
           stNew.maze.start_y = st.maze.start_y ∧
           stNew.maze.start_finish_size = st.maze.start_finish_size)
    (hp' : ∀ q ∈ stNew.paths, q ∈ st.paths ∨ q = p ∨ q = (next.x, next.y))
    (hgcase : (stNew.maze.goal_reached = st.maze.goal_reached ∧ next.finish_area = false) ∨
              (stNew.maze.goal_reached = true ∧ next.finish_area = true)) :
    GenInv xs ys sfs stNew := by
  obtain ⟨t, hadjc, hnexteq, hnx, hny, htg, hpg, hnvis, hnstart, hnotstart, hnfin,
    hpedge, hnoout, hnep, hpvs⟩ := advance_core hcfg hinv hpmem hvalid hadj
  have hnpt : ¬(p.1 = t.1 ∧ p.2 = t.2) := by
    rintro ⟨g1, g2⟩
    exact hnep (by rw [Prod.ext_iff]; exact ⟨g1.symm, g2.symm⟩)
  have hvis2 : ∀ a b, ((stNew.maze.cells a b).visited = true ↔
      ((st.maze.cells a b).visited = true ∨ (a = t.1 ∧ b = t.2))) := by
    intro a b
    rw [hmz]
    exact visited_move hinv.hcx hinv.hcy hnx hny hnep a b
  have hedg2 : ∀ a b e, ((stNew.maze.cells a b).edges e = true ↔
      ((st.maze.cells a b).edges e = true ∨ (a = p.1 ∧ b = p.2 ∧ e = d))) := by
    intro a b e
    rw [hmz]
    exact edges_move hinv.hcx hinv.hcy hnx hny hnep a b e
  have hfields := fun a b =>
    (hmz ▸ fields_move hinv.hcx hinv.hcy hnx hny hnep a b :
      (stNew.maze.cells a b).x = (st.maze.cells a b).x ∧
      (stNew.maze.cells a b).y = (st.maze.cells a b).y ∧
      (stNew.maze.cells a b).cell_type = (st.maze.cells a b).cell_type ∧
      (stNew.maze.cells a b).start_area = (st.maze.cells a b).start_area ∧
      (stNew.maze.cells a b).finish_area = (st.maze.cells a b).finish_area)
  have hnextfin : next.finish_area = (st.maze.cells t.1 t.2).finish_area := by
    rw [hnexteq]; rfl
  have hcount : visitedCount xs ys stNew.maze = visitedCount xs ys st.maze + 1 :=
    visitedCount_move hvis2 htg.1 htg.2 hnvis
  refine ⟨?_, ?_, ?_, ?_, ?_, ?_, ?_, ?_, ?_, ?_, ?_, ?_, ?_, ?_, ?_, ?_, ?_, ?_, ?_⟩
  · rw [hsc.1]; exact hinv.hx
  · rw [hsc.2.1]; exact hinv.hy
  · rw [hsc.2.2.2.2.2]; exact hinv.hsfs
  · rw [hsc.2.2.2.1]; exact hinv.hstx
  · rw [hsc.2.2.2.2.1]; exact hinv.hsty
  · rw [hsc.2.2.1]; exact hinv.hstrat
  · intro a b; rw [(hfields a b).1]; exact hinv.hcx a b
  · intro a b; rw [(hfields a b).2.1]; exact hinv.hcy a b
  · intro a b; rw [(hfields a b).2.2.1]; exact hinv.hct a b
  · intro a b; rw [(hfields a b).2.2.2.1]; exact hinv.hsa a b
  · intro a b; rw [(hfields a b).2.2.2.2]; exact hinv.hfa a b
  · -- hout
    intro a b hnin
    constructor
    · cases hv : (stNew.maze.cells a b).visited with
      | false => rfl
      | true =>
          exfalso
          rcases (hvis2 a b).mp hv with h | ⟨h1, h2⟩
          · rw [(hinv.hout a b hnin).1] at h; exact Bool.false_ne_true h
          · exact hnin ⟨by omega, by omega⟩
    · intro e
      cases he : (stNew.maze.cells a b).edges e with
      | false => rfl
      | true =>
          exfalso
          rcases (hedg2 a b e).mp he with h | ⟨h1, h2, _⟩
          · rw [(hinv.hout a b hnin).2 e] at h; exact Bool.false_ne_true h
          · exact hnin ⟨by omega, by omega⟩
  · -- hsv
    intro a b ha hb
    cases hv : (stNew.maze.cells a b).visited with
    | false => rfl
    | true =>
        exfalso
        rcases (hvis2 a b).mp hv with h | ⟨h1, h2⟩
        · rw [hinv.hsv a b ha hb] at h; exact Bool.false_ne_true h
        · exact hnstart ⟨by omega, by omega⟩
  · -- hedge
    intro a b e he
    rcases (hedg2 a b e).mp he with hold | ⟨h1, h2, h3⟩
    · obtain ⟨hg, u, hadju, huv, huns, hsrc⟩ := hinv.hedge a b e hold
      refine ⟨hg, u, hadju, (hvis2 u.1 u.2).mpr (Or.inl huv), huns, ?_⟩
      rcases hsrc with hsrc | hsrc
      · exact Or.inl ((hvis2 a b).mpr (Or.inl hsrc))
      · exact Or.inr hsrc
    · subst h1; subst h2; subst h3
      refine ⟨hpg, t, hadjc, (hvis2 t.1 t.2).mpr (Or.inr ⟨rfl, rfl⟩), hnstart, ?_⟩
      rcases hpvs with hpvs | hpvs
      · exact Or.inr hpvs
      · exact Or.inl ((hvis2 p.1 p.2).mpr (Or.inl hpvs))
  · -- hdeg
    intro a b ha hb hv
    have hdc := inDeg_congr hmz hsc.1 hsc.2.1 a b
    rw [hdc]
    have hax : a < st.maze.x_size := by rw [hinv.hx]; exact ha
    have hay : b < st.maze.y_size := by rw [hinv.hy]; exact hb
    by_cases hat : a = t.1 ∧ b = t.2
    · obtain ⟨ha1, ha2⟩ := hat
      subst ha1; subst ha2
      exact inDeg_move_target hinv hadjc hpg hnx hny hnep htg hnvis
    · rw [inDeg_move_other hinv hadjc hpg hnx hny hnep ha hb hat]
      apply hinv.hdeg a b ha hb
      rcases (hvis2 a b).mp hv with h | ⟨h1, h2⟩
      · exact h
      · exact absurd ⟨h1, h2⟩ hat
  · -- hpaths
    intro q hq
    rcases hp' q hq with h | h | h
    · obtain ⟨hg, hvs⟩ := hinv.hpaths q h
      refine ⟨hg, ?_⟩
      rcases hvs with hvs | hvs
      · exact Or.inl hvs
      · exact Or.inr ((hvis2 q.1 q.2).mpr (Or.inl hvs))
    · rw [h]
      refine ⟨hpg, ?_⟩
      rcases hpvs with hpvs | hpvs
      · exact Or.inl hpvs
      · exact Or.inr ((hvis2 p.1 p.2).mpr (Or.inl hpvs))
    · rw [h]
      rw [hnx, hny]
      exact ⟨htg, Or.inr ((hvis2 t.1 t.2).mpr (Or.inr ⟨rfl, rfl⟩))⟩
  · -- hgoal
    rcases hgcase with ⟨hgeq, hfinF⟩ | ⟨hgT, hfinT⟩
    · rw [hgeq]
      constructor
      · intro hg
        obtain ⟨a, b, hab, hfa, hva⟩ := hinv.hgoal.mp hg
        exact ⟨a, b, hab, by rw [(hfields a b).2.2.2.2]; exact hfa,
          (hvis2 a b).mpr (Or.inl hva)⟩
      · rintro ⟨a, b, hab, hfa, hva⟩
        apply hinv.hgoal.mpr
        rcases (hvis2 a b).mp hva with h | ⟨h1, h2⟩
        · exact ⟨a, b, hab, by rw [← (hfields a b).2.2.2.2]; exact hfa, h⟩
        · exfalso
          subst h1; subst h2
          rw [(hfields t.1 t.2).2.2.2.2] at hfa
          rw [← hnextfin] at hfa
          rw [hfinF] at hfa
          exact Bool.false_ne_true hfa
    · rw [hgT]
      constructor
      · intro _
        refine ⟨t.1, t.2, htg, ?_, (hvis2 t.1 t.2).mpr (Or.inr ⟨rfl, rfl⟩)⟩
        rw [(hfields t.1 t.2).2.2.2.2, ← hnextfin]
        exact hfinT
      · intro _; rfl
  · -- hone
    intro a b u v hfa hva hfu hvu
    rw [(hfields a b).2.2.2.2] at hfa
    rw [(hfields u v).2.2.2.2] at hfu
    rcases hgcase with ⟨hgeq, hfinF⟩ | ⟨hgT, hfinT⟩
    · have hnt : ¬(a = t.1 ∧ b = t.2) := by
        rintro ⟨h1, h2⟩
        subst h1; subst h2
        rw [← hnextfin, hfinF] at hfa
        exact Bool.false_ne_true hfa
      have hnu : ¬(u = t.1 ∧ v = t.2) := by
        rintro ⟨h1, h2⟩
        subst h1; subst h2
        rw [← hnextfin, hfinF] at hfu
        exact Bool.false_ne_true hfu
      have hva' : (st.maze.cells a b).visited = true := by
        rcases (hvis2 a b).mp hva with h | h
        · exact h
        · exact absurd h hnt
      have hvu' : (st.maze.cells u v).visited = true := by
        rcases (hvis2 u v).mp hvu with h | h
        · exact h
        · exact absurd h hnu
      exact hinv.hone a b u v hfa hva' hfu hvu'
    · have hgoalF : st.maze.goal_reached = false := by
        apply hnfin
        rw [← hnextfin]
        exact hfinT
      have hnold : ∀ c1 c2, (st.maze.cells c1 c2).finish_area = true →
          (st.maze.cells c1 c2).visited = true → False := by
        intro c1 c2 hf1 hv1
        by_cases hcg : c1 < xs ∧ c2 < ys
        · have := hinv.hgoal.mpr ⟨c1, c2, hcg, hf1, hv1⟩
          rw [hgoalF] at this
          exact Bool.false_ne_true this
        · rw [(hinv.hout c1 c2 hcg).1] at hv1
          exact Bool.false_ne_true hv1
      have hta : a = t.1 ∧ b = t.2 := by
        rcases (hvis2 a b).mp hva with h | h
        · exact absurd hva (by intro _; exact hnold a b hfa h)
        · exact h
      have htu : u = t.1 ∧ v = t.2 := by
        rcases (hvis2 u v).mp hvu with h | h
        · exact absurd hvu (by intro _; exact hnold u v hfu h)
        · exact h
      exact ⟨by omega, by omega⟩
  · -- hrank
    obtain ⟨rk, hrkE, hrkB⟩ := hinv.hrank
    refine ⟨fun a b => if a = t.1 ∧ b = t.2 then visitedCount xs ys st.maze + 1 else rk a b,
      ?_, ?_⟩
    · intro a b e u he hadju
      dsimp only
      rcases (hedg2 a b e).mp he with hold | ⟨h1, h2, h3⟩
      · have hsne : ¬(a = t.1 ∧ b = t.2) := by
          rintro ⟨h1, h2⟩
          subst h1; subst h2
          rw [hnoout e] at hold
          exact Bool.false_ne_true hold
        obtain ⟨_, u', hadju', hu'v, _, _⟩ := hinv.hedge a b e hold
        have huu : u' = u := by
          rw [hadju] at hadju'
          exact (Option.some_inj.mp hadju').symm
        rw [huu] at hu'v
        have hune : ¬(u.1 = t.1 ∧ u.2 = t.2) := by
          rintro ⟨h1, h2⟩
          rw [← h1, ← h2] at hnvis
          rw [hu'v] at hnvis
          exact Bool.true_eq_false.mp hnvis
        rw [if_neg hsne, if_neg hune]
        exact hrkE a b e u hold hadju
      · subst h1; subst h2; subst h3
        have hut : u = t := by
          rw [hadjc] at hadju
          exact (Option.some_inj.mp hadju).symm
        subst hut
        rw [if_neg hnpt, if_pos ⟨rfl, rfl⟩]
        exact Nat.lt_succ_of_le (hrkB p.1 p.2)
    · intro a b
      dsimp only
      rw [hcount]
      by_cases h : a = t.1 ∧ b = t.2
      · rw [if_pos h]
      · rw [if_neg h]
        exact Nat.le_succ_of_le (hrkB a b)

/-- Preservation when the maze is unchanged and the frontier only loses
entries or gains entries already known good. -/
theorem inv_same_maze {xs ys sfs : Nat} {st stNew : GenState} (hinv : GenInv xs ys sfs st)
    (hmz : stNew.maze = st.maze)
    (hp' : ∀ q ∈ stNew.paths, q ∈ st.paths ∨
      ((q.1 < xs ∧ q.2 < ys) ∧
        ((q.1 = 0 ∧ q.2 = sfs - 1) ∨ (st.maze.cells q.1 q.2).visited = true))) :
    GenInv xs ys sfs stNew := by
  refine ⟨?_, ?_, ?_, ?_, ?_, ?_, ?_, ?_, ?_, ?_, ?_, ?_, ?_, ?_, ?_, ?_, ?_, ?_, ?_⟩
  · rw [hmz]; exact hinv.hx
  · rw [hmz]; exact hinv.hy
  · rw [hmz]; exact hinv.hsfs
  · rw [hmz]; exact hinv.hstx
  · rw [hmz]; exact hinv.hsty
  · rw [hmz]; exact hinv.hstrat
  · rw [hmz]; exact hinv.hcx
  · rw [hmz]; exact hinv.hcy
  · rw [hmz]; exact hinv.hct
  · rw [hmz]; exact hinv.hsa
  · rw [hmz]; exact hinv.hfa
  · rw [hmz]; exact hinv.hout
  · rw [hmz]; exact hinv.hsv
  · rw [hmz]; exact hinv.hedge
  · rw [hmz]; exact hinv.hdeg
  · intro q hq
    rcases hp' q hq with h | h
    · have := hinv.hpaths q h
      rw [hmz]
      exact this
    · rw [hmz]
      exact h
  · rw [hmz]; exact hinv.hgoal
  · rw [hmz]; exact hinv.hone
  · rw [hmz]; exact hinv.hrank

theorem getD_mem {l : List (Nat × Nat)} {i : Nat} (h : i < l.length) :
    l.getD i (0, 0) ∈ l := by
  rw [List.getD_eq_getElem l (0, 0) h]
  exact List.getElem_mem h

/-- One successful generation step preserves the invariant. -/
theorem genStep_preserves {xs ys sfs : Nat} {st st' : GenState}
    (hcfg : validConfig xs ys sfs) (hinv : GenInv xs ys sfs st)
    (h : genStep st = some st') : GenInv xs ys sfs st' := by
  rcases genStep_cases h with
    ⟨_, rfl⟩ |
    ⟨_, _, rfl⟩ |
    ⟨p, hidx, hp, hm, hstart, rfl⟩ |
    ⟨p, previous, hidx, hp, hm, hnstart, hprev, rfl⟩ |
    ⟨p, d, next, hidx, hp, hm, hadj, hcase⟩
  · exact hinv
  · exact inv_same_maze hinv rfl (fun q hq => Or.inl hq)
  · exact inv_same_maze hinv rfl
      (fun q hq => Or.inl ((List.eraseIdx_sublist st.paths st.index).subset hq))
  · -- backtracking step
    have hpmem : p ∈ st.paths := by rw [← hp]; exact getD_mem hidx
    obtain ⟨hpg, hpvs⟩ := hinv.hpaths p hpmem
    have hpvisited : (st.maze.cells p.1 p.2).visited = true := by
      rcases hpvs with hpvs | hpvs
      · exfalso
        apply hnstart
        constructor
        · unfold Maze.get_cell
          rw [hinv.hcx, hinv.hstx]
          exact hpvs.1
        · unfold Maze.get_cell
          rw [hinv.hcy, hinv.hsty]
          exact hpvs.2
      · exact hpvs
    obtain ⟨e, t, hflag, hadjc, hedge', hgpc, htvs, htg⟩ :=
      inv_gpc_some hinv hpg.1 hpg.2 hpvisited
    rw [hgpc] at hprev
    have hpe : previous = st.maze.get_cell t.1 t.2 := (Option.some_inj.mp hprev).symm
    have hprx : previous.x = t.1 := by rw [hpe]; exact hinv.hcx t.1 t.2
    have hpry : previous.y = t.2 := by rw [hpe]; exact hinv.hcy t.1 t.2
    exact inv_same_maze hinv rfl (by
      intro q hq
      rcases List.mem_or_eq_of_mem_set hq with hq' | hq'
      · exact Or.inl hq'
      · right
        rw [hq', hprx, hpry]
        refine ⟨htg, ?_⟩
        rcases htvs with htvs | htvs
        · exact Or.inr htvs
        · exact Or.inl htvs)
  · -- advance step
    have hpmem : p ∈ st.paths := by rw [← hp]; exact getD_mem hidx
    have hvalid := meander_ok_some_valid st.maze _ _ _ hm
    have hqx : (st.maze.get_cell p.1 p.2).x = p.1 := hinv.hcx p.1 p.2
    have hqy : (st.maze.get_cell p.1 p.2).y = p.2 := hinv.hcy p.1 p.2
    rcases hcase with ⟨hfin, rfl⟩ | ⟨hfin, rfl⟩
    · refine inv_move hcfg hinv hpmem hvalid hadj rfl ⟨rfl, rfl, rfl, rfl, rfl, rfl⟩ ?_
        (Or.inr ⟨rfl, hfin⟩)
      intro q hq
      by_cases hb : st.branch.headD false
      · rw [if_pos hb] at hq
        rcases List.mem_append.mp hq with h | h
        · exact Or.inl h
        · right; left
          rw [List.mem_singleton] at h
          rw [h, hqx, hqy]
      · rw [if_neg hb] at hq
        exact Or.inl hq
    · refine inv_move hcfg hinv hpmem hvalid hadj rfl ⟨rfl, rfl, rfl, rfl, rfl, rfl⟩ ?_
        (Or.inl ⟨rfl, hfin⟩)
      intro q hq
      rcases List.mem_or_eq_of_mem_set hq with hq' | hq'
      · by_cases hb : st.branch.headD false
        · rw [if_pos hb] at hq'
          rcases List.mem_append.mp hq' with h | h
          · exact Or.inl h
          · right; left
            rw [List.mem_singleton] at h
            rw [h, hqx, hqy]
        · rw [if_neg hb] at hq'
          exact Or.inl hq'
      · exact Or.inr (Or.inr hq')

/-- The invariant holds in the initial state of `generate` on a maze built by
`Maze::new` with a valid configuration. -/
theorem inv_init {xs ys sfs : Nat} (hcfg : validConfig xs ys sfs)
    (rng : List Nat) (br : List Bool) :
    GenInv xs ys sfs (initState (Maze.new xs ys sfs) rng br) := by
  obtain ⟨h1, h2, h3⟩ := hcfg
  refine ⟨rfl, rfl, rfl, rfl, rfl, rfl, fun a b => rfl, fun a b => rfl, fun a b => rfl,
    fun a b => rfl, fun a b => rfl, fun a b _ => ⟨rfl, fun _ => rfl⟩,
    fun a b _ _ => rfl, ?_, ?_, ?_, ?_, ?_, ?_⟩
  · intro a b d hed
    exact (Bool.false_ne_true hed).elim
  · intro a b _ _ hv
    exact (Bool.false_ne_true hv).elim
  · intro q hq
    simp only [initState] at hq
    rw [List.mem_singleton] at hq
    rw [hq]
    exact ⟨⟨show 0 < xs by omega, show sfs - 1 < ys by omega⟩, Or.inl ⟨rfl, rfl⟩⟩
  · constructor
    · intro h
      exact (Bool.false_ne_true h).elim
    · rintro ⟨a, b, _, _, hv⟩
      exact (Bool.false_ne_true hv).elim
  · intro a b u v _ hva _ _
    exact (Bool.false_ne_true hva).elim
  · exact ⟨fun _ _ => 0, fun a b d t hed _ => (Bool.false_ne_true hed).elim,
      fun a b => Nat.zero_le _⟩

/-- The invariant holds at every state reached by the generation machine. -/
theorem inv_run {xs ys sfs : Nat} {st st' : GenState} (hcfg : validConfig xs ys sfs)
    (hinv : GenInv xs ys sfs st) {fuel : Nat} (h : genRun fuel st = some st') :
    GenInv xs ys sfs st' := by
  induction fuel generalizing st with
  | zero =>
      unfold genRun at h
      injection h with h
      rw [← h]
      exact hinv
  | succ n ih =>
      unfold genRun at h
      by_cases hemp : st.paths.isEmpty
      · rw [if_pos hemp] at h
        injection h with h
        rw [← h]
        exact hinv
      · rw [if_neg hemp] at h
        cases hstep : genStep st with
        | none => rw [hstep] at h; exact absurd h (by simp)
        | some st1 =>
            rw [hstep] at h
            exact ih (genStep_preserves hcfg hinv hstep) h

/-! ### The recorded edges form a tree rooted at the start cell -/

theorem visitedCount_le (xs ys : Nat) (m : Maze) : visitedCount xs ys m ≤ xs * ys := by
  unfold visitedCount
  calc (((Finset.range xs) ×ˢ (Finset.range ys)).filter
        (fun p => (m.cells p.1 p.2).visited = true)).card
      ≤ ((Finset.range xs) ×ˢ (Finset.range ys)).card := Finset.card_filter_le _ _
    _ = xs * ys := by rw [Finset.card_product, Finset.card_range, Finset.card_range]

/-- From every visited cell, following the unique incoming edges backwards
reaches the start cell in at most `visitedCount` steps. -/
theorem inv_chain {xs ys sfs : Nat} {st : GenState} (hinv : GenInv xs ys sfs st) :
    ∀ x y, x < xs → y < ys → (st.maze.cells x y).visited = true →
      ∃ k, 1 ≤ k ∧ k ≤ visitedCount xs ys st.maze ∧
        prevIter st.maze k (x, y) = some (0, sfs - 1) := by
  obtain ⟨rk, hrkE, hrkB⟩ := hinv.hrank
  suffices H : ∀ n x y, rk x y ≤ n → x < xs → y < ys →
      (st.maze.cells x y).visited = true →
      ∃ k, 1 ≤ k ∧ k ≤ rk x y ∧ prevIter st.maze k (x, y) = some (0, sfs - 1) by
    intro x y hx hy hv
    obtain ⟨k, hk1, hk2, hk3⟩ := H (rk x y) x y le_rfl hx hy hv
    exact ⟨k, hk1, le_trans hk2 (hrkB x y), hk3⟩
  intro n
  induction n with
  | zero =>
      intro x y hn hx hy hv
      exfalso
      obtain ⟨e, t, hflag, hadjc, hedge', hgpc, htvs, htg⟩ := inv_gpc_some hinv hx hy hv
      have hback := adjOpt_inv hx hy hadjc
      have h0 := hrkE t.1 t.2 e.opposite (x, y) hedge' hback
      dsimp only at h0
      omega
  | succ m ih =>
      intro x y hn hx hy hv
      obtain ⟨e, t, hflag, hadjc, hedge', hgpc, htvs, htg⟩ := inv_gpc_some hinv hx hy hv
      have hback := adjOpt_inv hx hy hadjc
      have hlt : rk t.1 t.2 < rk x y := by
        have h0 := hrkE t.1 t.2 e.opposite (x, y) hedge' hback
        dsimp only at h0
        exact h0
      rcases htvs with htvs | htvs
      · obtain ⟨k, hk1, hk2, hk3⟩ := ih t.1 t.2 (by omega) htg.1 htg.2 htvs
        refine ⟨k + 1, by omega, by omega, ?_⟩
        show prevIter st.maze (k + 1) (x, y) = some (0, sfs - 1)
        unfold prevIter
        dsimp only
        rw [hgpc]
        dsimp only
        unfold Maze.get_cell
        rw [hinv.hcx, hinv.hcy]
        exact hk3
      · refine ⟨1, le_rfl, by omega, ?_⟩
        show prevIter st.maze 1 (x, y) = some (0, sfs - 1)
        unfold prevIter
        dsimp only
        rw [hgpc]
        dsimp only
        unfold Maze.get_cell
        rw [hinv.hcx, hinv.hcy]
        unfold prevIter
        rw [htvs.1, htvs.2]

/-- C1: after `generate` completes, every visited cell has exactly one
incoming edge, the start cell is unvisited with zero incoming edges, and
from every visited cell repeatedly following the incoming edge reaches the
start cell within at most `x_size * y_size` steps. -/
theorem generate_tree_property (xs ys sfs fuel : Nat) (rng : List Nat) (br : List Bool)
    (st : GenState) (hcfg : validConfig xs ys sfs)
    (hrun : genRun fuel (initState (Maze.new xs ys sfs) rng br) = some st)
    (hdone : st.paths = []) :
    (∀ x y, x < xs → y < ys → (st.maze.cells x y).visited = true →
        st.maze.inDeg x y = 1) ∧
    st.maze.inDeg st.maze.start_x st.maze.start_y = 0 ∧
    (st.maze.cells st.maze.start_x st.maze.start_y).visited = false ∧
    (∀ x y, x < xs → y < ys → (st.maze.cells x y).visited = true →
        ∃ k, k ≤ xs * ys ∧
          prevIter st.maze k (x, y) = some (st.maze.start_x, st.maze.start_y)) := by
  have hinv : GenInv xs ys sfs st := inv_run hcfg (inv_init hcfg rng br) hrun
  obtain ⟨h1, h2, h3⟩ := hcfg
  have hsvst : (st.maze.cells st.maze.start_x st.maze.start_y).visited = false := by
    rw [hinv.hstx, hinv.hsty]
    exact hinv.hsv 0 (sfs - 1) (by omega) (by omega)
  refine ⟨hinv.hdeg, ?_, hsvst, ?_⟩
  · rw [hinv.hstx, hinv.hsty]
    rw [hinv.hstx, hinv.hsty] at hsvst
    exact inv_unvisited_inDeg0 hinv (by omega) (by omega) hsvst
  · intro x y hx hy hv
    obtain ⟨k, _, hk2, hk3⟩ := inv_chain hinv x y hx hy hv
    refine ⟨k, le_trans hk2 (visitedCount_le xs ys st.maze), ?_⟩
    rw [hinv.hstx, hinv.hsty]
    exact hk3

/-- C1 witness: the tree property on a fully completed concrete run (the 3×3
generation with all-zero random streams finishes within 40 machine steps). -/
theorem generate_tree_property_witness :
    (∀ x y, x < 3 → y < 3 →
        (((genRun 40 (initState (Maze.new 3 3 1) [] [])).get (by decide)).maze.cells x y).visited = true →
        ((genRun 40 (initState (Maze.new 3 3 1) [] [])).get (by decide)).maze.inDeg x y = 1) ∧
    ((genRun 40 (initState (Maze.new 3 3 1) [] [])).get (by decide)).maze.inDeg
      ((genRun 40 (initState (Maze.new 3 3 1) [] [])).get (by decide)).maze.start_x
      ((genRun 40 (initState (Maze.new 3 3 1) [] [])).get (by decide)).maze.start_y = 0 ∧
    (((genRun 40 (initState (Maze.new 3 3 1) [] [])).get (by decide)).maze.cells
      ((genRun 40 (initState (Maze.new 3 3 1) [] [])).get (by decide)).maze.start_x
      ((genRun 40 (initState (Maze.new 3 3 1) [] [])).get (by decide)).maze.start_y).visited = false ∧
    (∀ x y, x < 3 → y < 3 →
        (((genRun 40 (initState (Maze.new 3 3 1) [] [])).get (by decide)).maze.cells x y).visited = true →
        ∃ k, k ≤ 3 * 3 ∧
          prevIter ((genRun 40 (initState (Maze.new 3 3 1) [] [])).get (by decide)).maze k (x, y)
            = some (((genRun 40 (initState (Maze.new 3 3 1) [] [])).get (by decide)).maze.start_x,
                    ((genRun 40 (initState (Maze.new 3 3 1) [] [])).get (by decide)).maze.start_y)) :=
  generate_tree_property 3 3 1 40 [] []
    ((genRun 40 (initState (Maze.new 3 3 1) [] [])).get (by decide))
    (by decide)
    (Option.some_get (by decide)).symm
    (by decide)

/-! ### No pair of opposing edges -/

/-- C10: for every pair of geometrically adjacent cells, at most one of the
two opposing edge flags between them is set at any reachable state of the
generation. -/
theorem generate_no_opposing_edges (xs ys sfs fuel : Nat) (rng : List Nat)
    (br : List Bool) (st : GenState) (hcfg : validConfig xs ys sfs)
    (hrun : genRun fuel (initState (Maze.new xs ys sfs) rng br) = some st) :
    ∀ x y d t, adjOpt xs ys x y d = some t →
      (st.maze.cells x y).edges d = true →
      (st.maze.cells t.1 t.2).edges d.opposite = false := by
  have hinv : GenInv xs ys sfs st := inv_run hcfg (inv_init hcfg rng br) hrun
  intro x y d t hadjc he
  cases hrev : (st.maze.cells t.1 t.2).edges d.opposite with
  | false => rfl
  | true =>
      exfalso
      obtain ⟨rk, hrkE, _⟩ := hinv.hrank
      obtain ⟨hg, _⟩ := hinv.hedge x y d he
      have hfwd : rk x y < rk t.1 t.2 := hrkE x y d t he hadjc
      have hback := adjOpt_inv hg.1 hg.2 hadjc
      have hrevlt := hrkE t.1 t.2 d.opposite (x, y) hrev hback
      dsimp only at hrevlt
      omega

/-- C10 witness: the completed 3×3 run records the edge east out of `(0, 0)`,
and the opposing west edge at the neighbor `(1, 0)` is indeed absent. -/
theorem generate_no_opposing_edges_witness :
    (((genRun 40 (initState (Maze.new 3 3 1) [] [])).get (by decide)).maze.cells 1 0).edges
      Direction.east.opposite = false :=
  generate_no_opposing_edges 3 3 1 40 [] []
    ((genRun 40 (initState (Maze.new 3 3 1) [] [])).get (by decide))
    (by decide) (Option.some_get (by decide)).symm
    0 0 .east (1, 0) (by decide) (by decide)

/-! ### The goal flag and the finish area -/

/-- C7: at every reachable state, `goal_reached` holds exactly when some
finish-area cell is visited, at most one finish-area cell is ever visited,
and once `goal_reached` holds a further step never records an edge into a
finish-area cell (all edges towards finish-area cells are unchanged). -/
theorem generate_goal_finish (xs ys sfs fuel : Nat) (rng : List Nat)
    (br : List Bool) (st : GenState) (hcfg : validConfig xs ys sfs)
    (hrun : genRun fuel (initState (Maze.new xs ys sfs) rng br) = some st) :
    (st.maze.goal_reached = true ↔
      ∃ x y, (x < xs ∧ y < ys) ∧ (st.maze.cells x y).finish_area = true ∧
        (st.maze.cells x y).visited = true) ∧
    (∀ x y u v, (st.maze.cells x y).finish_area = true →
      (st.maze.cells x y).visited = true →
      (st.maze.cells u v).finish_area = true → (st.maze.cells u v).visited = true →
      x = u ∧ y = v) ∧
    (st.maze.goal_reached = true → ∀ st', genStep st = some st' →
      ∀ x y d t, adjOpt xs ys x y d = some t →
        (st.maze.cells t.1 t.2).finish_area = true →
        (st'.maze.cells x y).edges d = (st.maze.cells x y).edges d) := by
  have hinv : GenInv xs ys sfs st := inv_run hcfg (inv_init hcfg rng br) hrun
  refine ⟨hinv.hgoal, hinv.hone, ?_⟩
  intro hg st' hstep x y d t hadjc hfin
  rcases genStep_cases hstep with
    ⟨_, rfl⟩ |
    ⟨_, _, rfl⟩ |
    ⟨p, hidx, hp, hm, hstart, rfl⟩ |
    ⟨p, previous, hidx, hp, hm, hnstart, hprev, rfl⟩ |
    ⟨p, d0, next, hidx, hp, hm, hadj, hcase⟩
  · rfl
  · rfl
  · rfl
  · rfl
  · have hpmem : p ∈ st.paths := by rw [← hp]; exact getD_mem hidx
    have hvalid := meander_ok_some_valid st.maze _ _ _ hm
    obtain ⟨t0, hadjc0, hnexteq, hnx, hny, htg0, hpg0, hnvis0, _, _, hnfin0, hpedge0,
      _, hnep0, _⟩ := advance_core hcfg hinv hpmem hvalid hadj
    have ht0fin : (st.maze.cells t0.1 t0.2).finish_area = false := by
      cases hf0 : (st.maze.cells t0.1 t0.2).finish_area with
      | false => rfl
      | true =>
          exfalso
          have := hnfin0 hf0
          rw [hg] at this
          exact Bool.true_eq_false.mp this
    have hcells' : ∀ a b, (st'.maze.cells a b) =
        (((st.maze.draw_edge (st.maze.get_cell p.1 p.2) d0).mark_as_visited next).cells a b) := by
      rcases hcase with ⟨_, rfl⟩ | ⟨_, rfl⟩ <;> intro a b <;> rfl
    rw [hcells' x y]
    have hnotnew : ¬(x = p.1 ∧ y = p.2 ∧ d = d0) := by
      rintro ⟨g1, g2, g3⟩
      subst g1; subst g2; subst g3
      rw [hadjc0] at hadjc
      have := Option.some_inj.mp hadjc
      rw [this] at ht0fin
      rw [hfin] at ht0fin
      exact Bool.true_eq_false.mp ht0fin
    cases hold : (st.maze.cells x y).edges d with
    | true =>
        exact (edges_move hinv.hcx hinv.hcy hnx hny hnep0 x y d).mpr (Or.inl hold)
    | false =>
        cases hnew : ((((st.maze.draw_edge (st.maze.get_cell p.1 p.2) d0).mark_as_visited
            next).cells x y)).edges d with
        | false => rfl
        | true =>
            exfalso
            rcases (edges_move hinv.hcx hinv.hcy hnx hny hnep0 x y d).mp hnew with h | h
            · rw [hold] at h; exact Bool.false_ne_true h
            · exact hnotnew h

/-- C7 witness: the goal/finish characterization at the initial state of a
valid configuration. -/
theorem generate_goal_finish_witness :
    (initState (Maze.new 3 3 1) [] []).maze.goal_reached = true ↔
      ∃ x y, (x < 3 ∧ y < 3) ∧
        ((initState (Maze.new 3 3 1) [] []).maze.cells x y).finish_area = true ∧
        ((initState (Maze.new 3 3 1) [] []).maze.cells x y).visited = true :=
  (generate_goal_finish 3 3 1 0 [] [] (initState (Maze.new 3 3 1) [] [])
    (by decide) rfl).1

/-! ### Frame and monotonicity of the per-cell mutations -/

theorem step_cells_fields (m : Maze) (c1 : Cell) (dir : Direction) (c2 : Cell) (x y : Nat) :
    ((((m.draw_edge c1 dir).mark_as_visited c2).cells x y).x = (m.cells x y).x) ∧
    ((((m.draw_edge c1 dir).mark_as_visited c2).cells x y).y = (m.cells x y).y) ∧
    ((((m.draw_edge c1 dir).mark_as_visited c2).cells x y).cell_type
      = (m.cells x y).cell_type) ∧
    ((((m.draw_edge c1 dir).mark_as_visited c2).cells x y).start_area
      = (m.cells x y).start_area) ∧
    ((((m.draw_edge c1 dir).mark_as_visited c2).cells x y).finish_area
      = (m.cells x y).finish_area) := by
  rw [cells_after_step]
  by_cases h2 : x = c2.x ∧ y = c2.y <;> by_cases h1 : x = c1.x ∧ y = c1.y <;>
    simp [h1, h2, Cell.mark_as_visited, Cell.draw_edge] <;>
    (try (refine ⟨?_, ?_, ?_, ?_, ?_⟩ <;> split <;> rfl))

theorem step_cells_visited_mono (m : Maze) (c1 : Cell) (dir : Direction) (c2 : Cell)
    (x y : Nat) (h : (m.cells x y).visited = true) :
    (((m.draw_edge c1 dir).mark_as_visited c2).cells x y).visited = true := by
  rw [cells_after_step]
  by_cases h2 : x = c2.x ∧ y = c2.y <;> by_cases h1 : x = c1.x ∧ y = c1.y <;>
    simp [h1, h2, Cell.mark_as_visited, Cell.draw_edge, h] <;>
    (try (split <;> simp_all))

theorem step_cells_edges_mono (m : Maze) (c1 : Cell) (dir : Direction) (c2 : Cell)
    (x y : Nat) (e : Direction) (h : (m.cells x y).edges e = true) :
    (((m.draw_edge c1 dir).mark_as_visited c2).cells x y).edges e = true := by
  rw [cells_after_step]
  by_cases h2 : x = c2.x ∧ y = c2.y
  · rw [if_pos h2]
    by_cases h1 : x = c1.x ∧ y = c1.y
    · rw [if_pos h1]
      unfold Cell.mark_as_visited Cell.draw_edge
      dsimp only
      by_cases he : e = dir <;> simp [he, h]
    · rw [if_neg h1]
      unfold Cell.mark_as_visited
      dsimp only
      exact h
  · rw [if_neg h2]
    by_cases h1 : x = c1.x ∧ y = c1.y
    · rw [if_pos h1]
      unfold Cell.draw_edge
      dsimp only
      by_cases he : e = dir <;> simp [he, h]
    · rw [if_neg h1]
      exact h

/-- C9: a generation step never changes a cell's coordinates, type, or
region flags; the visited flag and the edge flags only ever go from `false`
to `true` (an edge once drawn is never cleared, a visited mark is never
removed), so each flag is set at most once over any run. -/
theorem genStep_frame_mono (st st' : GenState) (h : genStep st = some st') :
    (∀ x y, (st'.maze.cells x y).x = (st.maze.cells x y).x ∧
      (st'.maze.cells x y).y = (st.maze.cells x y).y ∧
      (st'.maze.cells x y).cell_type = (st.maze.cells x y).cell_type ∧
      (st'.maze.cells x y).start_area = (st.maze.cells x y).start_area ∧
      (st'.maze.cells x y).finish_area = (st.maze.cells x y).finish_area) ∧
    (∀ x y, (st.maze.cells x y).visited = true → (st'.maze.cells x y).visited = true) ∧
    (∀ x y e, (st.maze.cells x y).edges e = true → (st'.maze.cells x y).edges e = true) := by
  rcases genStep_cases h with
    ⟨_, rfl⟩ |
    ⟨_, _, rfl⟩ |
    ⟨p, _, _, _, _, rfl⟩ |
    ⟨p, previous, _, _, _, _, _, rfl⟩ |
    ⟨p, d0, next, _, _, _, _, hcase⟩
  · exact ⟨fun x y => ⟨rfl, rfl, rfl, rfl, rfl⟩, fun x y hv => hv, fun x y e he => he⟩
  · exact ⟨fun x y => ⟨rfl, rfl, rfl, rfl, rfl⟩, fun x y hv => hv, fun x y e he => he⟩
  · exact ⟨fun x y => ⟨rfl, rfl, rfl, rfl, rfl⟩, fun x y hv => hv, fun x y e he => he⟩
  · exact ⟨fun x y => ⟨rfl, rfl, rfl, rfl, rfl⟩, fun x y hv => hv, fun x y e he => he⟩
  · rcases hcase with ⟨_, rfl⟩ | ⟨_, rfl⟩ <;>
      exact ⟨fun x y => step_cells_fields st.maze _ d0 next x y,
        fun x y hv => step_cells_visited_mono st.maze _ d0 next x y hv,
        fun x y e he => step_cells_edges_mono st.maze _ d0 next x y e he⟩

/-- C9 witness: the frame and monotonicity facts for the first concrete step
of the 3×3 generation. -/
theorem genStep_frame_mono_witness :
    (((genStep (initState (Maze.new 3 3 1) [] [])).get (by decide)).maze.cells 0 0).x
      = ((initState (Maze.new 3 3 1) [] []).maze.cells 0 0).x ∧
    (((genStep (initState (Maze.new 3 3 1) [] [])).get (by decide)).maze.cells 0 0).y
      = ((initState (Maze.new 3 3 1) [] []).maze.cells 0 0).y ∧
    (((genStep (initState (Maze.new 3 3 1) [] [])).get (by decide)).maze.cells 0 0).cell_type
      = ((initState (Maze.new 3 3 1) [] []).maze.cells 0 0).cell_type ∧
    (((genStep (initState (Maze.new 3 3 1) [] [])).get (by decide)).maze.cells 0 0).start_area
      = ((initState (Maze.new 3 3 1) [] []).maze.cells 0 0).start_area ∧
    (((genStep (initState (Maze.new 3 3 1) [] [])).get (by decide)).maze.cells 0 0).finish_area
      = ((initState (Maze.new 3 3 1) [] []).maze.cells 0 0).finish_area :=
  (genStep_frame_mono (initState (Maze.new 3 3 1) [] [])
    ((genStep (initState (Maze.new 3 3 1) [] [])).get (by decide))
    (Option.some_get (by decide)).symm).1 0 0

/-! ### Termination machinery -/

theorem depthAux_start (m : Maze) (fuel : Nat) :
    depthAux m fuel (m.start_x, m.start_y) = 0 := by
  cases fuel <;> simp [depthAux]

theorem inv_visited_lt {xs ys sfs : Nat} {st : GenState}
    (hcfg : validConfig xs ys sfs) (hinv : GenInv xs ys sfs st) :
    visitedCount xs ys st.maze < xs * ys := by
  obtain ⟨h1, h2, h3⟩ := hcfg
  have horig : (0, 0) ∈ (Finset.range xs) ×ˢ (Finset.range ys) := by
    simp only [Finset.mem_product, Finset.mem_range]
    omega
  have hsub : ((Finset.range xs) ×ˢ (Finset.range ys)).filter
      (fun q => (st.maze.cells q.1 q.2).visited = true)
      ⊆ ((Finset.range xs) ×ˢ (Finset.range ys)).erase (0, 0) := by
    intro q hq
    rw [Finset.mem_filter] at hq
    rw [Finset.mem_erase]
    refine ⟨?_, hq.1⟩
    intro hq0
    rw [hq0] at hq
    rw [hinv.hsv 0 0 (by omega) (by omega)] at hq
    exact Bool.false_ne_true hq.2
  calc visitedCount xs ys st.maze
      ≤ (((Finset.range xs) ×ˢ (Finset.range ys)).erase (0, 0)).card :=
        Finset.card_le_card hsub
    _ < ((Finset.range xs) ×ˢ (Finset.range ys)).card :=
        Finset.card_erase_lt_of_mem horig
    _ = xs * ys := by rw [Finset.card_product, Finset.card_range, Finset.card_range]

/-- Strengthening of the chain lemma: the backward chain length is also the
value computed by `depthAux` for any sufficient fuel. -/
theorem inv_chain_full {xs ys sfs : Nat} {st : GenState}
    (hcfg : validConfig xs ys sfs) (hinv : GenInv xs ys sfs st) :
    ∀ x y, x < xs → y < ys → (st.maze.cells x y).visited = true →
      ∃ k, 1 ≤ k ∧ k ≤ visitedCount xs ys st.maze ∧
        prevIter st.maze k (x, y) = some (0, sfs - 1) ∧
        (∀ fuel, k ≤ fuel → depthAux st.maze fuel (x, y) = k) := by
  obtain ⟨hc1, hc2, hc3⟩ := hcfg
  obtain ⟨rk, hrkE, hrkB⟩ := hinv.hrank
  have hstart_ne : ∀ x y, (st.maze.cells x y).visited = true →
      ¬((x, y) = (st.maze.start_x, st.maze.start_y)) := by
    intro x y hv heq
    rw [Prod.ext_iff] at heq
    obtain ⟨e1, e2⟩ := heq
    dsimp only at e1 e2
    rw [hinv.hstx] at e1
    rw [hinv.hsty] at e2
    rw [e1, e2] at hv
    rw [hinv.hsv 0 (sfs - 1) (by omega) (by omega)] at hv
    exact Bool.false_ne_true hv
  suffices H : ∀ n x y, rk x y ≤ n → x < xs → y < ys →
      (st.maze.cells x y).visited = true →
      ∃ k, 1 ≤ k ∧ k ≤ rk x y ∧ prevIter st.maze k (x, y) = some (0, sfs - 1) ∧
        (∀ fuel, k ≤ fuel → depthAux st.maze fuel (x, y) = k) by
    intro x y hx hy hv
    obtain ⟨k, hk1, hk2, hk3, hk4⟩ := H (rk x y) x y le_rfl hx hy hv
    exact ⟨k, hk1, le_trans hk2 (hrkB x y), hk3, hk4⟩
  intro n
  induction n with
  | zero =>
      intro x y hn hx hy hv
      exfalso
      obtain ⟨e, t, hflag, hadjc, hedge', hgpc, htvs, htg⟩ := inv_gpc_some hinv hx hy hv
      have hback := adjOpt_inv hx hy hadjc
      have h0 := hrkE t.1 t.2 e.opposite (x, y) hedge' hback
      dsimp only at h0
      omega
  | succ m ih =>
      intro x y hn hx hy hv
      obtain ⟨e, t, hflag, hadjc, hedge', hgpc, htvs, htg⟩ := inv_gpc_some hinv hx hy hv
      have hback := adjOpt_inv hx hy hadjc
      have hlt : rk t.1 t.2 < rk x y := by
        have h0 := hrkE t.1 t.2 e.opposite (x, y) hedge' hback
        dsimp only at h0
        exact h0
      have hunf : ∀ fuel, depthAux st.maze (fuel + 1) (x, y)
          = depthAux st.maze fuel (t.1, t.2) + 1 := by
        intro fuel
        conv_lhs => unfold depthAux
        rw [if_neg (hstart_ne x y hv)]
        dsimp only
        rw [hgpc]
        dsimp only
        unfold Maze.get_cell
        rw [hinv.hcx, hinv.hcy]
      rcases htvs with htvs | htvs
      · obtain ⟨k, hk1, hk2, hk3, hk4⟩ := ih t.1 t.2 (by omega) htg.1 htg.2 htvs
        refine ⟨k + 1, by omega, by omega, ?_, ?_⟩
        · show prevIter st.maze (k + 1) (x, y) = some (0, sfs - 1)
          unfold prevIter
          dsimp only
          rw [hgpc]
          dsimp only
          unfold Maze.get_cell
          rw [hinv.hcx, hinv.hcy]
          exact hk3
        · intro fuel hfuel
          obtain ⟨f, rfl⟩ : ∃ f, fuel = f + 1 := ⟨fuel - 1, by omega⟩
          rw [hunf f]
          rw [hk4 f (by omega)]
      · refine ⟨1, le_rfl, by omega, ?_, ?_⟩
        · show prevIter st.maze 1 (x, y) = some (0, sfs - 1)
          unfold prevIter
          dsimp only
          rw [hgpc]
          dsimp only
          unfold Maze.get_cell
          rw [hinv.hcx, hinv.hcy]
          unfold prevIter
          rw [htvs.1, htvs.2]
        · intro fuel hfuel
          obtain ⟨f, rfl⟩ : ∃ f, fuel = f + 1 := ⟨fuel - 1, by omega⟩
          rw [hunf f]
          have : depthAux st.maze f (t.1, t.2) = 0 := by
            have hs := depthAux_start st.maze f
            rw [hinv.hstx, hinv.hsty] at hs
            rw [htvs.1, htvs.2]
            exact hs
          rw [this]

/-! ### Termination of the generation loop -/

/-- The incoming-edge scan only depends on the cell grid and the grid
dimensions. -/
theorem incomingFlag_congr {m m' : Maze} (hc : m'.cells = m.cells)
    (hx : m'.x_size = m.x_size) (hy : m'.y_size = m.y_size) :
    ∀ a b e, m'.incomingFlag a b e = m.incomingFlag a b e := by
  have hga : ∀ (c : Cell) e, m'.get_adjacent c e = m.get_adjacent c e := by
    intro c e
    cases e <;> simp only [Maze.get_adjacent, Maze.get_cell, hc, hx, hy]
  intro a b e
  unfold Maze.incomingFlag Maze.get_cell
  rw [hc, hga]

/-- A visited cell is never the start cell: the start area stays unvisited. -/
theorem inv_visited_ne_start {xs ys sfs : Nat} {st : GenState}
    (hcfg : validConfig xs ys sfs) (hinv : GenInv xs ys sfs st) {x y : Nat}
    (hv : (st.maze.cells x y).visited = true) :
    ¬((x, y) = (st.maze.start_x, st.maze.start_y)) := by
  obtain ⟨hc1, _, _⟩ := hcfg
  intro heq
  rw [Prod.ext_iff] at heq
  obtain ⟨e1, e2⟩ := heq
  dsimp only at e1 e2
  rw [hinv.hstx] at e1
  rw [hinv.hsty] at e2
  rw [e1, e2] at hv
  rw [hinv.hsv 0 (sfs - 1) (by omega) (by omega)] at hv
  exact Bool.false_ne_true hv

/-- Computation of `get_previous_cell` from a unique incoming flag. -/
theorem gpc_of_unique_flag {xs ys sfs : Nat} {st : GenState} (hinv : GenInv xs ys sfs st)
    {x y : Nat} (hx : x < xs) (hy : y < ys) {e : Direction} {t : Nat × Nat}
    (hflag : st.maze.incomingFlag x y e = true)
    (huniq : ∀ e', st.maze.incomingFlag x y e' = true → e' = e)
    (hadjc : adjOpt xs ys x y e = some t) :
    st.maze.get_previous_cell? (st.maze.get_cell x y)
      = some (st.maze.get_cell t.1 t.2) := by
  unfold Maze.get_previous_cell?
  rw [gpd_unique st.maze x y e hflag huniq]
  dsimp only
  rw [opposite_opposite]
  rw [get_adjacent_eq]
  unfold Maze.get_cell
  rw [hinv.hcx, hinv.hcy, hinv.hx, hinv.hy, hadjc]
  simp only [Option.map_some']
  rw [hinv.hcx, hinv.hcy]

/-- One-step unfolding of the depth computation at a visited cell whose
backward step is known. -/
theorem depthAux_succ_eq {xs ys sfs : Nat} {st : GenState}
    (hcfg : validConfig xs ys sfs) (hinv : GenInv xs ys sfs st)
    {x y : Nat} {t : Nat × Nat}
    (hv : (st.maze.cells x y).visited = true)
    (hgpc : st.maze.get_previous_cell? (st.maze.get_cell x y)
      = some (st.maze.get_cell t.1 t.2)) (fuel : Nat) :
    depthAux st.maze (fuel + 1) (x, y) = depthAux st.maze fuel (t.1, t.2) + 1 := by
  conv_lhs => unfold depthAux
  rw [if_neg (inv_visited_ne_start hcfg hinv hv)]
  dsimp only
  rw [hgpc]
  dsimp only
  unfold Maze.get_cell
  rw [hinv.hcx, hinv.hcy]

/-- The depth of a visited in-grid cell: a positive stable value of `depthAux`
for every sufficient fuel, bounded by the number of visited cells. -/
theorem inv_depth_visited {xs ys sfs : Nat} {st : GenState}
    (hcfg : validConfig xs ys sfs) (hinv : GenInv xs ys sfs st)
    {x y : Nat} (hx : x < xs) (hy : y < ys)
    (hv : (st.maze.cells x y).visited = true) :
    depth st.maze (x, y) ≤ visitedCount xs ys st.maze ∧
    1 ≤ depth st.maze (x, y) ∧
    ∀ fuel, visitedCount xs ys st.maze ≤ fuel →
      depthAux st.maze fuel (x, y) = depth st.maze (x, y) := by
  obtain ⟨k, hk1, hk2, _, hk4⟩ := inv_chain_full hcfg hinv x y hx hy hv
  have hVN : visitedCount xs ys st.maze ≤ xs * ys := visitedCount_le xs ys st.maze
  have hdepth : depth st.maze (x, y) = k := by
    unfold depth
    rw [hinv.hx, hinv.hy]
    exact hk4 (xs * ys) (by omega)
  rw [hdepth]
  exact ⟨hk2, hk1, fun fuel hf => hk4 fuel (by omega)⟩

/-- The depth of the start cell is zero at every fuel. -/
theorem inv_depthAux_start {xs ys sfs : Nat} {st : GenState}
    (hinv : GenInv xs ys sfs st) (fuel : Nat) :
    depthAux st.maze fuel (0, sfs - 1) = 0 := by
  have h := depthAux_start st.maze fuel
  rw [hinv.hstx, hinv.hsty] at h
  exact h

/-- The depth of the start cell is zero. -/
theorem inv_depth_start {xs ys sfs : Nat} {st : GenState}
    (hinv : GenInv xs ys sfs st) : depth st.maze (0, sfs - 1) = 0 := by
  unfold depth
  exact inv_depthAux_start hinv _

/-- The depth of a visited cell is one more than the depth of its
predecessor. -/
theorem inv_depth_succ {xs ys sfs : Nat} {st : GenState}
    (hcfg : validConfig xs ys sfs) (hinv : GenInv xs ys sfs st)
    {x y : Nat} (hx : x < xs) (hy : y < ys)
    (hv : (st.maze.cells x y).visited = true) :
    ∃ t : Nat × Nat, st.maze.get_previous_cell? (st.maze.get_cell x y)
        = some (st.maze.get_cell t.1 t.2) ∧
      (t.1 < xs ∧ t.2 < ys) ∧
      ((st.maze.cells t.1 t.2).visited = true ∨ (t.1 = 0 ∧ t.2 = sfs - 1)) ∧
      depth st.maze (x, y) = depth st.maze (t.1, t.2) + 1 := by
  obtain ⟨e, t, hflag, hadjc, hedge', hgpc, htvs, htg⟩ := inv_gpc_some hinv hx hy hv
  have hN : 0 < xs * ys := by
    obtain ⟨hc1, hc2, hc3⟩ := hcfg
    exact Nat.mul_pos (by omega) (by omega)
  obtain ⟨f, hf⟩ : ∃ f, xs * ys = f + 1 := ⟨xs * ys - 1, by omega⟩
  have hVlt : visitedCount xs ys st.maze < xs * ys := inv_visited_lt hcfg hinv
  have hdx : depth st.maze (x, y) = depthAux st.maze (xs * ys) (x, y) := by
    unfold depth
    rw [hinv.hx, hinv.hy]
  have hstep := depthAux_succ_eq hcfg hinv hv hgpc f
  have hdt : depthAux st.maze f (t.1, t.2) = depth st.maze (t.1, t.2) := by
    rcases htvs with htv | hts
    · exact (inv_depth_visited hcfg hinv htg.1 htg.2 htv).2.2 f (by omega)
    · rw [hts.1, hts.2]
      rw [inv_depthAux_start hinv f, inv_depth_start hinv]
  refine ⟨t, hgpc, htg, htvs, ?_⟩
  rw [hdx, hf, hstep, hdt]

/-- Depth is stable at previously visited cells (and rises to the source's
depth plus one at the destination) under the edge-drawing move, for any new
state whose maze holds the moved grid: this covers both the ordinary and the
finish-area advance of `generate`. -/
theorem depth_move {xs ys sfs : Nat} {st stNew : GenState} {p : Nat × Nat}
    {d : Direction} {next : Cell}
    (hcfg : validConfig xs ys sfs) (hinv : GenInv xs ys sfs st)
    (hpmem : p ∈ st.paths)
    (hvalid : st.maze.is_valid (st.maze.get_cell p.1 p.2) d = true)
    (hadj : st.maze.get_adjacent (st.maze.get_cell p.1 p.2) d = some next)
    (hmz : stNew.maze.cells
      = ((st.maze.draw_edge (st.maze.get_cell p.1 p.2) d).mark_as_visited next).cells)
    (hsc : stNew.maze.x_size = st.maze.x_size ∧ stNew.maze.y_size = st.maze.y_size ∧
           stNew.maze.strategies = st.maze.strategies ∧
           stNew.maze.start_x = st.maze.start_x ∧
           stNew.maze.start_y = st.maze.start_y ∧
           stNew.maze.start_finish_size = st.maze.start_finish_size)
    (hp' : ∀ q ∈ stNew.paths, q ∈ st.paths ∨ q = p ∨ q = (next.x, next.y))
    (hgcase : (stNew.maze.goal_reached = st.maze.goal_reached ∧ next.finish_area = false) ∨
              (stNew.maze.goal_reached = true ∧ next.finish_area = true)) :
    (∀ a b, ((st.maze.cells a b).visited = true ∨ (a = 0 ∧ b = sfs - 1)) →
      depth stNew.maze (a, b) = depth st.maze (a, b)) ∧
    depth stNew.maze (next.x, next.y) = depth st.maze (p.1, p.2) + 1 := by
  have hinv2 : GenInv xs ys sfs stNew :=
    inv_move hcfg hinv hpmem hvalid hadj hmz hsc hp' hgcase
  obtain ⟨tm, hadjc, hnexteq, hnx, hny, htg, hpg, hnvis, hnstart, hnotstart, hnfin,
    hpedge, hnoout, hnep, hpvs⟩ := advance_core hcfg hinv hpmem hvalid hadj
  have hflagc : ∀ a b e, stNew.maze.incomingFlag a b e
      = ((st.maze.draw_edge (st.maze.get_cell p.1 p.2) d).mark_as_visited next).incomingFlag a b e := by
    intro a b e
    exact incomingFlag_congr hmz
      (by rw [hsc.1, (draw_mark_scalars st.maze (st.maze.get_cell p.1 p.2) d next).1])
      (by rw [hsc.2.1, (draw_mark_scalars st.maze (st.maze.get_cell p.1 p.2) d next).2.1])
      a b e
  have habtm : ∀ a b, (st.maze.cells a b).visited = true → ¬((a, b) = tm) := by
    intro a b hv h0
    rw [Prod.ext_iff] at h0
    dsimp only at h0
    rw [h0.1, h0.2] at hv
    rw [hnvis] at hv
    exact Bool.false_ne_true hv
  have hflagN : ∀ a b e, a < xs → b < ys → ¬((a, b) = tm) →
      stNew.maze.incomingFlag a b e = st.maze.incomingFlag a b e := by
    intro a b e ha hb hne
    rw [hflagc]
    cases hold : st.maze.incomingFlag a b e with
    | true =>
        exact (flag_move hinv hadjc hpg hnx hny hnep a b e ha hb).mpr (Or.inl hold)
    | false =>
        cases hnew : ((st.maze.draw_edge (st.maze.get_cell p.1 p.2) d).mark_as_visited
            next).incomingFlag a b e with
        | false => rfl
        | true =>
            exfalso
            rcases (flag_move hinv hadjc hpg hnx hny hnep a b e ha hb).mp hnew with
              h0 | ⟨h1, _⟩
            · rw [h0] at hold
              exact Bool.true_eq_false.mp hold
            · exact hne h1
  have key : ∀ fuel a b, ((st.maze.cells a b).visited = true ∨ (a = 0 ∧ b = sfs - 1)) →
      depthAux stNew.maze fuel (a, b) = depthAux st.maze fuel (a, b) := by
    intro fuel
    induction fuel with
    | zero => intro a b _; rfl
    | succ f ih =>
        intro a b hvs
        rcases hvs with hv | hs
        · have hab : a < xs ∧ b < ys := by
            by_contra hc
            rw [(hinv.hout a b hc).1] at hv
            exact Bool.false_ne_true hv
          have hvnew : (stNew.maze.cells a b).visited = true := by
            rw [hmz]
            exact (visited_move hinv.hcx hinv.hcy hnx hny hnep a b).mpr (Or.inl hv)
          obtain ⟨e, hflag, huniq⟩ :=
            inDeg_one_cases st.maze a b (hinv.hdeg a b hab.1 hab.2 hv)
          have hne : ¬((a, b) = tm) := habtm a b hv
          obtain ⟨t, hadjt, hedget⟩ := inv_flag_edge hinv hflag
          have htvs : (st.maze.cells t.1 t.2).visited = true ∨ (t.1 = 0 ∧ t.2 = sfs - 1) := by
            obtain ⟨_, t', hadj', _, _, hsrc⟩ := hinv.hedge t.1 t.2 e.opposite hedget
            exact hsrc
          have hgpcOld := gpc_of_unique_flag hinv hab.1 hab.2 hflag huniq hadjt
          have hflagN2 : stNew.maze.incomingFlag a b e = true := by
            rw [hflagN a b e hab.1 hab.2 hne]
            exact hflag
          have huniq2 : ∀ e', stNew.maze.incomingFlag a b e' = true → e' = e := by
            intro e' he'
            rw [hflagN a b e' hab.1 hab.2 hne] at he'
            exact huniq e' he'
          have hgpcNew := gpc_of_unique_flag hinv2 hab.1 hab.2 hflagN2 huniq2 hadjt
          rw [depthAux_succ_eq hcfg hinv2 hvnew hgpcNew f]
          rw [depthAux_succ_eq hcfg hinv hv hgpcOld f]
          rw [ih t.1 t.2 htvs]
        · rw [hs.1, hs.2]
          rw [inv_depthAux_start hinv2 (f + 1), inv_depthAux_start hinv (f + 1)]
  have hxy2 : stNew.maze.x_size * stNew.maze.y_size = xs * ys := by
    rw [hinv2.hx, hinv2.hy]
  have hxy1 : st.maze.x_size * st.maze.y_size = xs * ys := by
    rw [hinv.hx, hinv.hy]
  constructor
  · intro a b hvs
    unfold depth
    rw [hxy2, hxy1]
    exact key (xs * ys) a b hvs
  · have hvtm : (stNew.maze.cells tm.1 tm.2).visited = true := by
      rw [hmz]
      exact (visited_move hinv.hcx hinv.hcy hnx hny hnep tm.1 tm.2).mpr (Or.inr ⟨rfl, rfl⟩)
    obtain ⟨e2, hflag2, huniq2⟩ :=
      inDeg_one_cases stNew.maze tm.1 tm.2 (hinv2.hdeg tm.1 tm.2 htg.1 htg.2 hvtm)
    have hflagd : stNew.maze.incomingFlag tm.1 tm.2 d.opposite = true := by
      rw [hflagc]
      exact (flag_move hinv hadjc hpg hnx hny hnep tm.1 tm.2 d.opposite htg.1 htg.2).mpr
        (Or.inr ⟨rfl, rfl⟩)
    have he2 : e2 = d.opposite := (huniq2 d.opposite hflagd).symm
    have hadjinv : adjOpt xs ys tm.1 tm.2 d.opposite = some (p.1, p.2) :=
      adjOpt_inv hpg.1 hpg.2 hadjc
    have hgpcN : stNew.maze.get_previous_cell? (stNew.maze.get_cell tm.1 tm.2)
        = some (stNew.maze.get_cell p.1 p.2) :=
      gpc_of_unique_flag hinv2 htg.1 htg.2 hflagd
        (fun e' he' => (huniq2 e' he').trans he2) hadjinv
    have hN : 0 < xs * ys := by
      obtain ⟨hc1, hc2, hc3⟩ := hcfg
      exact Nat.mul_pos (by omega) (by omega)
    obtain ⟨f, hf⟩ : ∃ f, xs * ys = f + 1 := ⟨xs * ys - 1, by omega⟩
    have hstep := @depthAux_succ_eq xs ys sfs stNew hcfg hinv2 tm.1 tm.2 (p.1, p.2)
      hvtm hgpcN f
    have hpq : (st.maze.cells p.1 p.2).visited = true ∨ (p.1 = 0 ∧ p.2 = sfs - 1) :=
      hpvs.symm
    have hvp : ∀ g, f ≤ g → depthAux st.maze g (p.1, p.2) = depth st.maze (p.1, p.2) := by
      intro g hg
      rcases hpvs with hs | hv
      · rw [hs.1, hs.2, inv_depthAux_start hinv g, inv_depth_start hinv]
      · refine (inv_depth_visited hcfg hinv hpg.1 hpg.2 hv).2.2 g ?_
        have hVlt := inv_visited_lt hcfg hinv
        omega
    have hxn : (next.x, next.y) = (tm.1, tm.2) := by rw [hnx, hny]
    rw [hxn]
    unfold depth
    rw [hxy2, hxy1, hf, hstep]
    dsimp only
    rw [key f p.1 p.2 hpq, hvp f le_rfl, hvp (f + 1) (by omega)]

/-- Effect of `List.set` on a mapped sum, stated additively. -/
theorem map_sum_set (f : Nat × Nat → Nat) (a : Nat × Nat) :
    ∀ (l : List (Nat × Nat)) (i : Nat), i < l.length →
      ((l.set i a).map f).sum + f (l.getD i (0, 0)) = (l.map f).sum + f a := by
  intro l
  induction l with
  | nil => intro i h; simp at h
  | cons x l ih =>
      intro i h
      cases i with
      | zero =>
          simp only [List.set_cons_zero, List.getD_cons_zero, List.map_cons, List.sum_cons]
          omega
      | succ j =>
          have hj : j < l.length := by
            simp only [List.length_cons] at h
            omega
          simp only [List.set_cons_succ, List.getD_cons_succ, List.map_cons, List.sum_cons]
          have := ih j hj
          omega

/-- Effect of `List.eraseIdx` on a mapped sum, stated additively. -/
theorem map_sum_eraseIdx (f : Nat × Nat → Nat) :
    ∀ (l : List (Nat × Nat)) (i : Nat), i < l.length →
      ((l.eraseIdx i).map f).sum + f (l.getD i (0, 0)) = (l.map f).sum := by
  intro l
  induction l with
  | nil => intro i h; simp at h
  | cons x l ih =>
      intro i h
      cases i with
      | zero =>
          simp only [List.eraseIdx_cons_zero, List.getD_cons_zero, List.map_cons,
            List.sum_cons]
          omega
      | succ j =>
          have hj : j < l.length := by
            simp only [List.length_cons] at h
            omega
          simp only [List.eraseIdx_cons_succ, List.getD_cons_succ, List.map_cons,
            List.sum_cons]
          have := ih j hj
          omega

/-- A state satisfying the invariant never panics: `genStep` always succeeds. -/
theorem inv_genStep_ne_none {xs ys sfs : Nat} {st : GenState}
    (hinv : GenInv xs ys sfs st) : genStep st ≠ none := by
  unfold genStep
  by_cases hemp : st.paths.isEmpty
  · rw [if_pos hemp]
    exact Option.some_ne_none _
  · rw [if_neg hemp]
    by_cases hidx : st.paths.length ≤ st.index
    · rw [if_pos hidx]
      exact Option.some_ne_none _
    · rw [if_neg hidx]
      push_neg at hidx
      dsimp only
      have hpmem : st.paths.getD st.index (0, 0) ∈ st.paths := getD_mem hidx
      obtain ⟨hpg, hpvs⟩ := hinv.hpaths _ hpmem
      cases hm : st.maze.meander (st.maze.get_cell (st.paths.getD st.index (0, 0)).1
          (st.paths.getD st.index (0, 0)).2) (st.rng.headD 0) with
      | error e =>
          cases e
          exact absurd hm (inv_meander_ne_error hinv _ _ _)
      | ok od =>
          cases od with
          | none =>
              dsimp only
              by_cases hstart : (st.maze.get_cell (st.paths.getD st.index (0, 0)).1
                  (st.paths.getD st.index (0, 0)).2).x = st.maze.start_x ∧
                  (st.maze.get_cell (st.paths.getD st.index (0, 0)).1
                    (st.paths.getD st.index (0, 0)).2).y = st.maze.start_y
              · rw [if_pos hstart]
                exact Option.some_ne_none _
              · rw [if_neg hstart]
                have hv : (st.maze.cells (st.paths.getD st.index (0, 0)).1
                    (st.paths.getD st.index (0, 0)).2).visited = true := by
                  rcases hpvs with hs | hv
                  · exact absurd ⟨by
                        unfold Maze.get_cell
                        rw [hinv.hcx, hinv.hstx]
                        exact hs.1, by
                        unfold Maze.get_cell
                        rw [hinv.hcy, hinv.hsty]
                        exact hs.2⟩ hstart
                  · exact hv
                obtain ⟨e, t, _, _, _, hgpc, _, _⟩ := inv_gpc_some hinv hpg.1 hpg.2 hv
                rw [hgpc]
                exact Option.some_ne_none _
          | some dd =>
              dsimp only
              have hvalid := meander_ok_some_valid st.maze _ _ dd hm
              obtain ⟨target, hadjt, _⟩ := (is_valid_true_iff _ _ _).mp hvalid
              rw [hadjt]
              dsimp only
              by_cases hfin : target.finish_area = true
              · rw [if_pos hfin]
                exact Option.some_ne_none _
              · rw [if_neg hfin]
                exact Option.some_ne_none _

/-- The termination measure strictly decreases at every step taken from a
state with a non-empty frontier. -/
theorem genStep_measure {xs ys sfs : Nat} {st st' : GenState}
    (hcfg : validConfig xs ys sfs) (hinv : GenInv xs ys sfs st)
    (hne : st.paths.isEmpty = false) (h : genStep st = some st') :
    stepMeasure xs ys st' < stepMeasure xs ys st := by
  have hnil : st.paths ≠ [] := by
    intro h0
    rw [h0] at hne
    simp at hne
  have hlen0 : 0 < st.paths.length := List.length_pos.mpr hnil
  rcases genStep_cases h with
    ⟨hemp, _⟩ |
    ⟨_, hidx, rfl⟩ |
    ⟨p, hidx, hp, hm, hstart, rfl⟩ |
    ⟨p, previous, hidx, hp, hm, hstart, hgpc, rfl⟩ |
    ⟨p, d, next, hidx, hp, hm, hadj, hcase⟩
  · rw [hemp] at hne
    exact absurd hne (by simp)
  · -- inner-loop restart
    unfold stepMeasure pathSum
    dsimp only
    rw [if_pos hlen0, if_neg (by omega : ¬st.index < st.paths.length)]
    omega
  · -- retire the path at the start cell
    unfold stepMeasure pathSum
    dsimp only
    have hsum := map_sum_eraseIdx (fun q => 1 + depth st.maze q) st.paths st.index hidx
    dsimp only at hsum
    rw [if_pos hidx]
    have hflag : (if st.index < (st.paths.eraseIdx st.index).length then (0:Nat) else 1)
        ≤ 1 := by
      split <;> omega
    omega
  · -- backtrack to the previous cell
    have hpmem : p ∈ st.paths := by rw [← hp]; exact getD_mem hidx
    obtain ⟨hpg, hpvs⟩ := hinv.hpaths p hpmem
    have hpv : (st.maze.cells p.1 p.2).visited = true := by
      rcases hpvs with hs | hv
      · exact absurd ⟨by
            unfold Maze.get_cell
            rw [hinv.hcx, hinv.hstx]
            exact hs.1, by
            unfold Maze.get_cell
            rw [hinv.hcy, hinv.hsty]
            exact hs.2⟩ hstart
      · exact hv
    obtain ⟨t, hgpct, htg, htvs, hdepth⟩ := inv_depth_succ hcfg hinv hpg.1 hpg.2 hpv
    rw [hgpct] at hgpc
    have hpe : previous = st.maze.get_cell t.1 t.2 := (Option.some_inj.mp hgpc).symm
    have hprx : previous.x = t.1 := by rw [hpe]; exact hinv.hcx t.1 t.2
    have hpry : previous.y = t.2 := by rw [hpe]; exact hinv.hcy t.1 t.2
    unfold stepMeasure pathSum
    dsimp only
    rw [hprx, hpry, if_pos hidx]
    have hsum : ((st.paths.set st.index (t.1, t.2)).map (fun q => 1 + depth st.maze q)).sum
        + (1 + depth st.maze p)
        = (st.paths.map (fun q => 1 + depth st.maze q)).sum
          + (1 + depth st.maze (t.1, t.2)) := by
      have h0 := map_sum_set (fun q => 1 + depth st.maze q) (t.1, t.2) st.paths st.index hidx
      rw [hp] at h0
      exact h0
    have hdepth' : depth st.maze p = depth st.maze (t.1, t.2) + 1 := hdepth
    have hflag : (if st.index + 1 < (st.paths.set st.index (t.1, t.2)).length
        then (0:Nat) else 1) ≤ 1 := by
      split <;> omega
    omega
  · -- advance into a fresh cell
    have hpmem : p ∈ st.paths := by rw [← hp]; exact getD_mem hidx
    have hvalid := meander_ok_some_valid st.maze _ _ _ hm
    have hqx : (st.maze.get_cell p.1 p.2).x = p.1 := hinv.hcx p.1 p.2
    have hqy : (st.maze.get_cell p.1 p.2).y = p.2 := hinv.hcy p.1 p.2
    have hcpp : ((st.maze.get_cell p.1 p.2).x, (st.maze.get_cell p.1 p.2).y) = p := by
      rw [hqx, hqy]
    obtain ⟨tm, hadjc, hnexteq, hnx, hny, htg, hpg, hnvis, hnstart, hnotstart, hnfin,
      hpedge, hnoout, hnep, hpvs⟩ := advance_core hcfg hinv hpmem hvalid hadj
    have hpq : (st.maze.cells p.1 p.2).visited = true ∨ (p.1 = 0 ∧ p.2 = sfs - 1) :=
      hpvs.symm
    have hVlt : visitedCount xs ys st.maze < xs * ys := inv_visited_lt hcfg hinv
    have hdple : depth st.maze p ≤ visitedCount xs ys st.maze := by
      rcases hpvs with hs | hv
      · have h1 : depth st.maze (p.1, p.2) = 0 := by
          rw [hs.1, hs.2]
          exact inv_depth_start hinv
        have h0 : depth st.maze p = 0 := h1
        omega
      · exact (inv_depth_visited hcfg hinv hpg.1 hpg.2 hv).1
    have hKexp : (xs * ys + 2) * (xs * ys - visitedCount xs ys st.maze)
        = (xs * ys + 2) * (xs * ys - (visitedCount xs ys st.maze + 1)) + (xs * ys + 2) := by
      have h1 : xs * ys - visitedCount xs ys st.maze
          = (xs * ys - (visitedCount xs ys st.maze + 1)) + 1 := by omega
      rw [h1, Nat.mul_add, Nat.mul_one]
    have hPSold : pathSum st = (st.paths.map (fun q => 1 + depth st.maze q)).sum := rfl
    rcases hcase with ⟨hfin, hst'⟩ | ⟨hfin, hst'⟩
    · -- the destination is in the finish area: the frontier is not rewritten
      have hmz : st'.maze.cells
          = ((st.maze.draw_edge (st.maze.get_cell p.1 p.2) d).mark_as_visited next).cells := by
        rw [hst']
      have hsc : st'.maze.x_size = st.maze.x_size ∧ st'.maze.y_size = st.maze.y_size ∧
          st'.maze.strategies = st.maze.strategies ∧ st'.maze.start_x = st.maze.start_x ∧
          st'.maze.start_y = st.maze.start_y ∧
          st'.maze.start_finish_size = st.maze.start_finish_size := by
        rw [hst']
        exact ⟨rfl, rfl, rfl, rfl, rfl, rfl⟩
      have hindex' : st'.index = st.index + 1 := by rw [hst']
      have hgr : st'.maze.goal_reached = true := by rw [hst']
      have hpaths0 : st'.paths = (if st.branch.headD false = true then
          st.paths ++ [p] else st.paths) := by
        rw [hst']
        by_cases hb : st.branch.headD false = true
        · rw [if_pos hb, if_pos hb]
          dsimp only
          rw [hcpp]
        · rw [if_neg hb, if_neg hb]
      have hp1 : ∀ q ∈ st'.paths, q ∈ st.paths ∨ q = p ∨ q = (next.x, next.y) := by
        rw [hpaths0]
        intro q hq
        by_cases hb : st.branch.headD false = true
        · rw [if_pos hb] at hq
          rcases List.mem_append.mp hq with h0 | h0
          · exact Or.inl h0
          · rw [List.mem_singleton] at h0
            exact Or.inr (Or.inl h0)
        · rw [if_neg hb] at hq
          exact Or.inl hq
      have hdm := depth_move hcfg hinv hpmem hvalid hadj hmz hsc hp1 (Or.inr ⟨hgr, hfin⟩)
      have hvis2 : ∀ a b, ((st'.maze.cells a b).visited = true ↔
          ((st.maze.cells a b).visited = true ∨ (a = tm.1 ∧ b = tm.2))) := by
        intro a b
        rw [hmz]
        exact visited_move hinv.hcx hinv.hcy hnx hny hnep a b
      have hcount : visitedCount xs ys st'.maze = visitedCount xs ys st.maze + 1 :=
        visitedCount_move hvis2 htg.1 htg.2 hnvis
      have hstab : ∀ (l : List (Nat × Nat)), (∀ q ∈ l, q ∈ st.paths ∨ q = p) →
          (l.map (fun q => 1 + depth st'.maze q)).sum
            = (l.map (fun q => 1 + depth st.maze q)).sum := by
        intro l hl
        refine congrArg List.sum (List.map_congr_left ?_)
        intro q hq
        have hqvs : (st.maze.cells q.1 q.2).visited = true ∨ (q.1 = 0 ∧ q.2 = sfs - 1) := by
          rcases hl q hq with h0 | h0
          · exact ((hinv.hpaths q h0).2).symm
          · rw [h0]
            exact hpq
        have h1 : depth st'.maze q = depth st.maze q := hdm.1 q.1 q.2 hqvs
        simp only [h1]
      have hDp' : depth st'.maze p = depth st.maze p := by
        have h1 : depth st'.maze (p.1, p.2) = depth st.maze (p.1, p.2) := hdm.1 p.1 p.2 hpq
        exact h1
      by_cases hb : st.branch.headD false = true
      · have hpathsA : st'.paths = st.paths ++ [p] := by rw [hpaths0, if_pos hb]
        have hPS : pathSum st'
            = ((st.paths ++ [p]).map (fun q => 1 + depth st'.maze q)).sum := by
          unfold pathSum
          rw [hpathsA]
        have happ : ((st.paths ++ [p]).map (fun q => 1 + depth st'.maze q)).sum
            = (st.paths.map (fun q => 1 + depth st'.maze q)).sum
              + (1 + depth st'.maze p) := by
          simp
        rw [hDp'] at happ
        rw [hstab st.paths (fun q hq => Or.inl hq)] at happ
        unfold stepMeasure
        rw [hcount, hindex', hpathsA, if_pos hidx]
        have hflagA : (if st.index + 1 < (st.paths ++ [p]).length then (0:Nat) else 1)
            ≤ 1 := by
          split <;> omega
        omega
      · have hpathsB : st'.paths = st.paths := by rw [hpaths0, if_neg hb]
        have hPS : pathSum st' = (st.paths.map (fun q => 1 + depth st'.maze q)).sum := by
          unfold pathSum
          rw [hpathsB]
        have hstb := hstab st.paths (fun q hq => Or.inl hq)
        unfold stepMeasure
        rw [hcount, hindex', hpathsB, if_pos hidx]
        have hflagB : (if st.index + 1 < st.paths.length then (0:Nat) else 1) ≤ 1 := by
          split <;> omega
        omega
    · -- ordinary advance: the frontier entry moves to the destination
      have hmz : st'.maze.cells
          = ((st.maze.draw_edge (st.maze.get_cell p.1 p.2) d).mark_as_visited next).cells := by
        rw [hst']
      have hsc : st'.maze.x_size = st.maze.x_size ∧ st'.maze.y_size = st.maze.y_size ∧
          st'.maze.strategies = st.maze.strategies ∧ st'.maze.start_x = st.maze.start_x ∧
          st'.maze.start_y = st.maze.start_y ∧
          st'.maze.start_finish_size = st.maze.start_finish_size := by
        rw [hst']
        exact ⟨rfl, rfl, rfl, rfl, rfl, rfl⟩
      have hindex' : st'.index = st.index + 1 := by rw [hst']
      have hgval : st'.maze.goal_reached = st.maze.goal_reached := by
        rw [hst']
        rfl
      have hpaths0 : st'.paths = (if st.branch.headD false = true then
          st.paths ++ [p] else st.paths).set st.index (next.x, next.y) := by
        rw [hst']
        by_cases hb : st.branch.headD false = true
        · rw [if_pos hb, if_pos hb]
          dsimp only
          rw [hcpp]
        · rw [if_neg hb, if_neg hb]
      have hp1 : ∀ q ∈ st'.paths, q ∈ st.paths ∨ q = p ∨ q = (next.x, next.y) := by
        rw [hpaths0]
        intro q hq
        rcases List.mem_or_eq_of_mem_set hq with hq' | hq'
        · by_cases hb : st.branch.headD false = true
          · rw [if_pos hb] at hq'
            rcases List.mem_append.mp hq' with h0 | h0
            · exact Or.inl h0
            · rw [List.mem_singleton] at h0
              exact Or.inr (Or.inl h0)
          · rw [if_neg hb] at hq'
            exact Or.inl hq'
        · exact Or.inr (Or.inr hq')
      have hdm := depth_move hcfg hinv hpmem hvalid hadj hmz hsc hp1 (Or.inl ⟨hgval, hfin⟩)
      have hvis2 : ∀ a b, ((st'.maze.cells a b).visited = true ↔
          ((st.maze.cells a b).visited = true ∨ (a = tm.1 ∧ b = tm.2))) := by
        intro a b
        rw [hmz]
        exact visited_move hinv.hcx hinv.hcy hnx hny hnep a b
      have hcount : visitedCount xs ys st'.maze = visitedCount xs ys st.maze + 1 :=
        visitedCount_move hvis2 htg.1 htg.2 hnvis
      have hstab : ∀ (l : List (Nat × Nat)), (∀ q ∈ l, q ∈ st.paths ∨ q = p) →
          (l.map (fun q => 1 + depth st'.maze q)).sum
            = (l.map (fun q => 1 + depth st.maze q)).sum := by
        intro l hl
        refine congrArg List.sum (List.map_congr_left ?_)
        intro q hq
        have hqvs : (st.maze.cells q.1 q.2).visited = true ∨ (q.1 = 0 ∧ q.2 = sfs - 1) := by
          rcases hl q hq with h0 | h0
          · exact ((hinv.hpaths q h0).2).symm
          · rw [h0]
            exact hpq
        have h1 : depth st'.maze q = depth st.maze q := hdm.1 q.1 q.2 hqvs
        simp only [h1]
      have hDp' : depth st'.maze p = depth st.maze p := by
        have h1 : depth st'.maze (p.1, p.2) = depth st.maze (p.1, p.2) := hdm.1 p.1 p.2 hpq
        exact h1
      have hDn : depth st'.maze (next.x, next.y) = depth st.maze p + 1 := hdm.2
      by_cases hb : st.branch.headD false = true
      · have hpathsA : st'.paths = (st.paths ++ [p]).set st.index (next.x, next.y) := by
          rw [hpaths0, if_pos hb]
        have hlenA : st.index < (st.paths ++ [p]).length := by
          simp only [List.length_append, List.length_cons, List.length_nil]
          omega
        have hsum0 := map_sum_set (fun q => 1 + depth st'.maze q) (next.x, next.y)
          (st.paths ++ [p]) st.index hlenA
        rw [List.getD_append st.paths [p] (0, 0) st.index hidx, hp] at hsum0
        dsimp only at hsum0
        rw [hDp', hDn] at hsum0
        have happ : ((st.paths ++ [p]).map (fun q => 1 + depth st'.maze q)).sum
            = (st.paths.map (fun q => 1 + depth st'.maze q)).sum
              + (1 + depth st'.maze p) := by
          simp
        rw [hDp'] at happ
        rw [hstab st.paths (fun q hq => Or.inl hq)] at happ
        rw [happ] at hsum0
        have hPS : pathSum st'
            = (((st.paths ++ [p]).set st.index (next.x, next.y)).map
                (fun q => 1 + depth st'.maze q)).sum := by
          unfold pathSum
          rw [hpathsA]
        unfold stepMeasure
        rw [hcount, hindex', hpathsA, if_pos hidx]
        have hflagA : (if st.index + 1
            < ((st.paths ++ [p]).set st.index (next.x, next.y)).length
            then (0:Nat) else 1) ≤ 1 := by
          split <;> omega
        omega
      · have hpathsB : st'.paths = st.paths.set st.index (next.x, next.y) := by
          rw [hpaths0, if_neg hb]
        have hsum0 := map_sum_set (fun q => 1 + depth st'.maze q) (next.x, next.y)
          st.paths st.index hidx
        rw [hp] at hsum0
        dsimp only at hsum0
        rw [hDp', hDn] at hsum0
        rw [hstab st.paths (fun q hq => Or.inl hq)] at hsum0
        have hPS : pathSum st'
            = ((st.paths.set st.index (next.x, next.y)).map
                (fun q => 1 + depth st'.maze q)).sum := by
          unfold pathSum
          rw [hpathsB]
        unfold stepMeasure
        rw [hcount, hindex', hpathsB, if_pos hidx]
        have hflagB : (if st.index + 1 < (st.paths.set st.index (next.x, next.y)).length
            then (0:Nat) else 1) ≤ 1 := by
          split <;> omega
        omega

/-- A freshly built maze has no visited cells. -/
theorem visitedCount_new (xs ys sfs : Nat) : visitedCount xs ys (Maze.new xs ys sfs) = 0 := by
  unfold visitedCount
  rw [Finset.card_eq_zero, Finset.filter_eq_empty_iff]
  intro q hq
  have h0 : ((Maze.new xs ys sfs).cells q.1 q.2).visited = false := rfl
  rw [h0]
  simp

/-- The initial measure is strictly below the fuel budget `genFuel`. -/
theorem init_measure_lt (xs ys sfs : Nat) (rng : List Nat) (br : List Bool) :
    stepMeasure xs ys (initState (Maze.new xs ys sfs) rng br) < genFuel xs ys := by
  unfold stepMeasure genFuel
  have h0 : visitedCount xs ys (initState (Maze.new xs ys sfs) rng br).maze = 0 :=
    visitedCount_new xs ys sfs
  rw [h0, Nat.sub_zero]
  have h1 : pathSum (initState (Maze.new xs ys sfs) rng br) = 1 := by
    unfold pathSum initState
    simp only [List.map_cons, List.map_nil, List.sum_cons, List.sum_nil]
    have hd : depth (Maze.new xs ys sfs)
        (((Maze.new xs ys sfs).get_cell (Maze.new xs ys sfs).start_x
            (Maze.new xs ys sfs).start_y).x,
         ((Maze.new xs ys sfs).get_cell (Maze.new xs ys sfs).start_x
            (Maze.new xs ys sfs).start_y).y) = 0 := by
      unfold depth
      exact depthAux_start (Maze.new xs ys sfs) _
    rw [hd]
    omega
  rw [h1]
  have h2 : (if (initState (Maze.new xs ys sfs) rng br).index
      < (initState (Maze.new xs ys sfs) rng br).paths.length then (0:Nat) else 1) = 0 := by
    rw [if_pos]
    show (0:Nat) < 1
    omega
  rw [h2]
  omega

/-- With fuel exceeding the current measure, the generation loop reaches a
final state (an empty frontier) without panicking. -/
theorem genRun_total {xs ys sfs : Nat} (hcfg : validConfig xs ys sfs) :
    ∀ (fuel : Nat) (st : GenState), GenInv xs ys sfs st → stepMeasure xs ys st < fuel →
      ∃ st', genRun fuel st = some st' ∧ st'.paths = [] := by
  intro fuel
  induction fuel with
  | zero =>
      intro st _ hlt
      exact absurd hlt (Nat.not_lt_zero _)
  | succ f ih =>
      intro st hinv hlt
      by_cases hemp : st.paths.isEmpty
      · refine ⟨st, ?_, List.isEmpty_iff.mp hemp⟩
        unfold genRun
        rw [if_pos hemp]
      · have hemp' : st.paths.isEmpty = false := by
          cases h0 : st.paths.isEmpty with
          | false => rfl
          | true => exact absurd h0 hemp
        cases hstep : genStep st with
        | none => exact absurd hstep (inv_genStep_ne_none hinv)
        | some st1 =>
            have hinv1 := genStep_preserves hcfg hinv hstep
            have hdec := genStep_measure hcfg hinv hemp' hstep
            obtain ⟨st', hrun, hfin⟩ := ih st1 hinv1 (by omega)
            refine ⟨st', ?_, hfin⟩
            unfold genRun
            rw [if_neg hemp, hstep]
            exact hrun

/-- C8: `generate` terminates for every valid configuration.  Each loop step
either marks a previously-unvisited cell visited (bounded by the number of
grid cells), moves a frontier path strictly backward toward the start along
already-recorded edges (bounded by that path's depth), or retires a path at
the start cell; the combined measure strictly decreases, so on any valid
configuration and any random streams the generation machine reaches the
final state (an empty frontier) within `genFuel x_size y_size`
`= 2*((x_size*y_size + 2)*(x_size*y_size) + 1) + 2` steps — a polynomial in
the grid size. -/
theorem generate_terminates (xs ys sfs : Nat) (rng : List Nat) (br : List Bool)
    (hcfg : validConfig xs ys sfs) :
    ∃ st', genRun (genFuel xs ys) (initState (Maze.new xs ys sfs) rng br) = some st' ∧
      st'.paths = [] :=
  genRun_total hcfg (genFuel xs ys) (initState (Maze.new xs ys sfs) rng br)
    (inv_init hcfg rng br) (init_measure_lt xs ys sfs rng br)

/-- Witness for C8 at the concrete valid configuration `(3, 3, 1)` with empty
random streams. -/
theorem generate_terminates_witness :
    validConfig 3 3 1 ∧
    ∃ st', genRun (genFuel 3 3) (initState (Maze.new 3 3 1) [] []) = some st' ∧
      st'.paths = [] :=
  ⟨by decide, generate_terminates 3 3 1 [] [] (by decide)⟩
